import Mathlib

/-!
http-monitor: a shallow embedding of `check.go` and `main.go`.

The Go program builds `check` values from functional options, turns a check
into an HTTP request, runs the request and judges the response with a
validator.  This file embeds

* the validators `generallySucceeds`, `generallyFails`, `expectResponseCode`,
* the check builder `newCheck` and every option of `check.go`,
* `check.makeRequest`,
* one iteration of the `select` loop of `checkLoop`, with `CheckError`.

Conventions of the embedding.

* A Go pointer that may be nil is an `Option`; so is a Go function value and a
  Go map (a nil map reads as empty and cannot be written).
* Go `int` status codes are `Int`; no arithmetic is done on them.
* `http.Header` is `map[string][]string`.  It is embedded as an association
  list read by first match, and every statement about it is made through
  lookups.  Slices are lists (value semantics).
* A Go `error` is embedded by its text.
* `http.NewRequest` and `http.Client.Do` belong to the world outside the
  repository; they are fields of `Env`.
-/

namespace HttpMonitor

/-! ## Responses and formatting -/

/-- The part of `http.Response` the program reads. -/
structure Response where
  StatusCode : Int
deriving DecidableEq, Repr

/-- Go `http.StatusOK`. -/
def StatusOK : Int := 200

/-- Go `http.StatusBadRequest`. -/
def StatusBadRequest : Int := 400

/-- Go `http.StatusForbidden`. -/
def StatusForbidden : Int := 403

/-- The verb `%d` of `fmt.Sprintf` on an `int`: decimal digits, with a leading
minus sign for a negative number. -/
def fmtD (n : Int) : String :=
  match n with
  | Int.ofNat m => Nat.repr m
  | Int.negSucc m => "-" ++ Nat.repr (m + 1)

/-- The verb `%+v` of `fmt.Sprintf` on a `[]int`: the elements in decimal,
separated by one space, inside square brackets. -/
def fmtIntSlice (codes : List Int) : String :=
  "[" ++ " ".intercalate (codes.map fmtD) ++ "]"

/-- Go `type validator func(*http.Response) (string, bool)`. -/
abbrev validator := Option Response → String × Bool

/-! ## Validators (`check.go`, lines 97-129) -/

/-- Go `generallySucceeds`. -/
def generallySucceeds : validator := fun r =>
  match r with
  | none => ("missing response", false)
  | some r =>
    if StatusOK ≤ r.StatusCode ∧ r.StatusCode < StatusBadRequest then
      ("", true)
    else
      ("unexpected response code " ++ fmtD r.StatusCode ++ " (expected success)", false)

/-- Go `generallyFails`. -/
def generallyFails : validator := fun r =>
  match r with
  | none => ("missing response", false)
  | some r =>
    if StatusOK ≤ r.StatusCode ∧ r.StatusCode < StatusBadRequest then
      ("unexpected response code " ++ fmtD r.StatusCode ++ " (expected non-success)", false)
    else
      ("", true)

/-- The `for _, code := range codes` loop of `expectResponseCode`: `true` as
soon as one code equals the status code, `false` when the slice is exhausted. -/
def expectResponseCode.scan (status : Int) : List Int → Bool
  | [] => false
  | code :: rest => if code = status then true else expectResponseCode.scan status rest

/-- Go `expectResponseCode`. -/
def expectResponseCode (codes : List Int) : validator := fun r =>
  match r with
  | none => ("missing response", false)
  | some r =>
    if expectResponseCode.scan r.StatusCode codes then
      ("", true)
    else
      ("unexpected response code " ++ fmtD r.StatusCode ++ " (expected "
        ++ fmtIntSlice codes ++ ")", false)

/-! ## Headers (`net/http`, `net/textproto`) -/

/-- Go `textproto.validHeaderFieldByte`: the token characters of RFC 7230,
that is the ASCII letters and digits and the fifteen marks listed by code
point (`! # $ % & ' * + - . ^ _ backquote | ~`).  A character of a Lean
string outside ASCII stands for bytes of value 128 and above in the Go
string, none of which is valid. -/
def validHeaderFieldByte (c : Char) : Bool :=
  let n := c.toNat
  (48 ≤ n && n ≤ 57) || (65 ≤ n && n ≤ 90) || (97 ≤ n && n ≤ 122) ||
    [33, 35, 36, 37, 38, 39, 42, 43, 45, 46, 94, 95, 96, 124, 126].contains n

/-- The second loop of Go `textproto.canonicalMIMEHeaderKey`: upper case for the
first letter and for a letter after a dash, lower case for the others. -/
def canonicalMIMEHeaderKey.caseLoop : Bool → List Char → List Char
  | _, [] => []
  | upper, c :: rest =>
    let c1 :=
      if upper && decide (97 ≤ c.toNat) && decide (c.toNat ≤ 122) then Char.ofNat (c.toNat - 32)
      else if !upper && decide (65 ≤ c.toNat) && decide (c.toNat ≤ 90) then
        Char.ofNat (c.toNat + 32)
      else c
    c1 :: canonicalMIMEHeaderKey.caseLoop (c1 == '-') rest

/-- Go `textproto.canonicalMIMEHeaderKey` (its string result): a key holding a
byte that is neither valid nor a space is returned unchanged, so is a key
holding a space; any other key goes through the case loop.  The final table
lookup of the Go function returns an equal string and is left out. -/
def canonicalMIMEHeaderKey (a : List Char) : List Char :=
  if a.any (fun c => !validHeaderFieldByte c && c != ' ') then a
  else if a.any (fun c => !validHeaderFieldByte c) then a
  else canonicalMIMEHeaderKey.caseLoop true a

/-- The quick check at the head of Go `textproto.CanonicalMIMEHeaderKey`: the
key `s` is returned as it is when an invalid byte is met or the end is reached,
and handed to `canonicalMIMEHeaderKey` at the first letter of the wrong case. -/
def CanonicalMIMEHeaderKey.quick (s : List Char) : Bool → List Char → List Char
  | _, [] => s
  | upper, c :: rest =>
    if !validHeaderFieldByte c then s
    else if upper && decide (97 ≤ c.toNat) && decide (c.toNat ≤ 122) then
      canonicalMIMEHeaderKey s
    else if !upper && decide (65 ≤ c.toNat) && decide (c.toNat ≤ 90) then
      canonicalMIMEHeaderKey s
    else CanonicalMIMEHeaderKey.quick s (c == '-') rest

/-- Go `textproto.CanonicalMIMEHeaderKey`, which `http.Header.Add` applies to
its key: `accept-encoding` becomes `Accept-Encoding`. -/
def CanonicalMIMEHeaderKey (s : String) : String :=
  String.mk (CanonicalMIMEHeaderKey.quick s.data true s.data)

/-- Go `http.Header`, a `map[string][]string`, as an association list.  The
list is read by first match and written in place, so a list with repeated keys
behaves as the map of its first occurrences. -/
structure Header where
  entries : List (String × List String)
deriving DecidableEq, Repr

/-- Go `http.Header{}`. -/
def Header.empty : Header := ⟨[]⟩

/-- The map read `v, ok := h[k]`. -/
def Header.lookup (h : Header) (k : String) : Option (List String) :=
  h.entries.lookup k

/-- The map read `h[k]`: the nil slice when the key is absent. -/
def Header.values (h : Header) (k : String) : List String :=
  (h.lookup k).getD []

/-- The write of one entry list for `h[k] = v`. -/
def Header.setEntries (k : String) (v : List String) :
    List (String × List String) → List (String × List String)
  | [] => [(k, v)]
  | (k1, v1) :: rest =>
    if k1 = k then (k, v) :: rest else (k1, v1) :: Header.setEntries k v rest

/-- The map write `h[k] = v`. -/
def Header.set (h : Header) (k : String) (v : List String) : Header :=
  ⟨Header.setEntries k v h.entries⟩

/-- Go `http.Header.Add`, that is `textproto.MIMEHeader.Add`:
`key = CanonicalMIMEHeaderKey(key); h[key] = append(h[key], value)`. -/
def Header.Add (h : Header) (key value : String) : Header :=
  let key := CanonicalMIMEHeaderKey key
  h.set key (h.values key ++ [value])

/-- The entries visited by `for k, v := range h`: each key once, with the value
the map holds for it.  Go leaves the order unspecified; the embedding visits
the keys in list order. -/
def Header.range.go : List String → List (String × List String) → List (String × List String)
  | _, [] => []
  | seen, (k, v) :: rest =>
    if k ∈ seen then Header.range.go seen rest
    else (k, v) :: Header.range.go (k :: seen) rest

/-- The entries visited by `for k, v := range h`. -/
def Header.range (h : Header) : List (String × List String) :=
  Header.range.go [] h.entries

/-! ## Checks and options (`check.go`, lines 8-95) -/

/-- Go `type check struct`.  `Headers` is nil until a header option runs;
`Validate` is a function value and may be nil. -/
structure check where
  URL : String
  Method : String
  Headers : Option Header
  Validate : Option validator

/-- The read `c.Headers[k]` with its presence flag; a nil map has no key. -/
def check.hdrLookup (c : check) (k : String) : Option (List String) :=
  match c.Headers with
  | none => none
  | some h => h.lookup k

/-- The read `c.Headers[k]`; a nil map and an absent key give the nil slice. -/
def check.hdrValues (c : check) (k : String) : List String :=
  (c.hdrLookup k).getD []

/-- Go `type option func(*check)`: a function value, possibly nil, that updates
the draft it is given. -/
abbrev option := Option (check → check)

/-- Go `http.MethodGet`. -/
def MethodGet : String := "GET"
/-- Go `http.MethodPut`. -/
def MethodPut : String := "PUT"
/-- Go `http.MethodPost`. -/
def MethodPost : String := "POST"
/-- Go `http.MethodDelete`. -/
def MethodDelete : String := "DELETE"
/-- Go `http.MethodPatch`. -/
def MethodPatch : String := "PATCH"
/-- Go `http.MethodOptions`. -/
def MethodOptions : String := "OPTIONS"

/-- Go `optMethod`. -/
def optMethod (method : String) : option :=
  some fun c => { c with Method := method }

/-- Go `optURL`. -/
def optURL (u : String) : option :=
  some fun c => { c with URL := u }

/-- Go `optHdr`; the argument map may be nil. -/
def optHdr (h : Option Header) : option :=
  some fun c => { c with Headers := h }

/-- Go `optSetHdr`: a nil map is first replaced by `http.Header{}`, then
`c.Headers[k] = v`. -/
def optSetHdr (k : String) (v : List String) : option :=
  some fun c =>
    let h := match c.Headers with
      | none => Header.empty
      | some h => h
    { c with Headers := some (h.set k v) }

/-- Go `optAddHdr`: a nil map is first replaced by `http.Header{}`, then
`c.Headers.Add(k, v)`. -/
def optAddHdr (k : String) (v : String) : option :=
  some fun c =>
    let h := match c.Headers with
      | none => Header.empty
      | some h => h
    { c with Headers := some (h.Add k v) }

/-- Go `optValidate`; the argument may be a nil function value. -/
def optValidate (v : Option validator) : option :=
  some fun c => { c with Validate := v }

/-- Go `optGet`. -/
def optGet : option := optMethod MethodGet
/-- Go `optPut`. -/
def optPut : option := optMethod MethodPut
/-- Go `optPost`. -/
def optPost : option := optMethod MethodPost
/-- Go `optDelete`. -/
def optDelete : option := optMethod MethodDelete
/-- Go `optPatch`. -/
def optPatch : option := optMethod MethodPatch
/-- Go `optOptions`. -/
def optOptions : option := optMethod MethodOptions

/-- Go `optExpectCode`. -/
def optExpectCode (codes : List Int) : option := optValidate (some (expectResponseCode codes))

/-- Go `optSuccess`. -/
def optSuccess : option := optValidate (some generallySucceeds)
/-- Go `optFailure`. -/
def optFailure : option := optValidate (some generallyFails)
/-- Go `optForbidden`. -/
def optForbidden : option := optExpectCode [StatusForbidden]

/-- The `for _, opt := range opts` loop of `newCheck` on the draft `c`: a nil
option is skipped, any other is run on the draft. -/
def newCheck.loop (c : check) : List option → check
  | [] => c
  | opt :: rest =>
    match opt with
    | some f => newCheck.loop (f c) rest
    | none => newCheck.loop c rest

/-- Go `newCheck`. -/
def newCheck (opts : List option) : check :=
  newCheck.loop
    { URL := "", Method := MethodGet, Headers := none, Validate := some generallySucceeds } opts

/-- One call of an option of `check.go`, by name and arguments: the options a
caller of `newCheck` can pick from. -/
inductive OptCall where
  | optMethod (method : String)
  | optURL (u : String)
  | optHdr (h : Option Header)
  | optSetHdr (k : String) (v : List String)
  | optAddHdr (k : String) (v : String)
  | optValidate (v : Option validator)
  | optGet
  | optPut
  | optPost
  | optDelete
  | optPatch
  | optOptions
  | optExpectCode (codes : List Int)
  | optSuccess
  | optFailure
  | optForbidden

/-- The option value a call returns. -/
def OptCall.eval : OptCall → option
  | .optMethod m => HttpMonitor.optMethod m
  | .optURL u => HttpMonitor.optURL u
  | .optHdr h => HttpMonitor.optHdr h
  | .optSetHdr k v => HttpMonitor.optSetHdr k v
  | .optAddHdr k v => HttpMonitor.optAddHdr k v
  | .optValidate v => HttpMonitor.optValidate v
  | .optGet => HttpMonitor.optGet
  | .optPut => HttpMonitor.optPut
  | .optPost => HttpMonitor.optPost
  | .optDelete => HttpMonitor.optDelete
  | .optPatch => HttpMonitor.optPatch
  | .optOptions => HttpMonitor.optOptions
  | .optExpectCode codes => HttpMonitor.optExpectCode codes
  | .optSuccess => HttpMonitor.optSuccess
  | .optFailure => HttpMonitor.optFailure
  | .optForbidden => HttpMonitor.optForbidden

/-- An argument list of `newCheck` written with the options of `check.go`:
`none` is a nil entry, `some call` the value returned by that call. -/
def evalArgs (args : List (Option OptCall)) : List option :=
  args.map fun a =>
    match a with
    | none => none
    | some call => call.eval

/-- The call passes a non-empty method to `optMethod` and a non-nil validator
to `optValidate`; every other call satisfies this. -/
def OptCall.argsPresent : OptCall → Bool
  | .optMethod m => m != ""
  | .optValidate v => v.isSome
  | _ => true

/-! ## The request builder (`check.go`, lines 25-36) -/

/-- A Go `error`, by its text. -/
abbrev GoError := String

/-- The part of `http.Request` the program touches. -/
structure Request where
  Method : String
  URL : String
  Header : Header
deriving DecidableEq, Repr

/-- The world outside the repository, as seen during one iteration of the
check loop: `http.NewRequest(method, url, nil)`, which returns a request or an
error, and `http.Client.Do`, which returns a response pointer and an error. -/
structure Env where
  NewRequest : String → String → Except GoError Request
  Do : Option Request → Option Response × Option GoError

/-- The inner loop of `makeRequest`, `for _, vi := range v { r.Header.Add(k, vi) }`. -/
def check.makeRequest.addValues (k : String) : List String → Header → Header
  | [], h => h
  | vi :: rest, h => check.makeRequest.addValues k rest (h.Add k vi)

/-- The outer loop of `makeRequest`, `for k, v := range c.Headers`. -/
def check.makeRequest.copyHeaders : List (String × List String) → Header → Header
  | [], h => h
  | (k, v) :: rest, h =>
    check.makeRequest.copyHeaders rest (check.makeRequest.addValues k v h)

/-- Go `check.makeRequest`, with its two results: the request pointer and the
error.  A nil `c.Headers` is ranged over as an empty map. -/
def check.makeRequest (env : Env) (c : check) : Option Request × Option GoError :=
  match env.NewRequest c.Method c.URL with
  | .error err => (none, some err)
  | .ok r =>
    let entries := match c.Headers with
      | none => []
      | some h => h.range
    (some { r with Header := check.makeRequest.copyHeaders entries r.Header }, none)

/-! ## The check loop (`main.go`, lines 52-110) -/

/-- Go `type CheckError struct`. -/
structure CheckError where
  cause : Option GoError
  msg : String
  c : check

/-- Go `(*CheckError).Error`. -/
def CheckError.Error (e : CheckError) : String :=
  match e.cause with
  | none => e.msg ++ " [" ++ e.c.Method ++ " " ++ e.c.URL ++ "]"
  | some cause => e.msg ++ " because " ++ cause

/-- Go `(*CheckError).Unwrap`. -/
def CheckError.Unwrap (e : CheckError) : Option GoError := e.cause

/-- Go `(*CheckError).URL`. -/
def CheckError.URL (e : CheckError) : String := e.c.URL

/-- Go `(*CheckError).Method`. -/
def CheckError.Method (e : CheckError) : String := e.c.Method

/-- What one iteration of the loop does that another party can observe, in
order: the call `cl.Do(req)`, the call `c.Validate(res)`, the send
`errChan <- e`, and the two `close` calls. -/
inductive Event where
  | httpDo (req : Option Request)
  | validate (res : Option Response)
  | send (e : CheckError)
  | closeIn
  | closeErr

/-- Where the goroutine of `checkLoop` stands after an iteration: back at the
`select` (`idle`), returned after closing its channels (`terminated`), or ended
by the run-time panic that calling a nil `c.Validate` raises (`panicked`); that
panic ends the goroutine, and the process with it, and closes no channel. -/
inductive Phase where
  | idle
  | terminated
  | panicked
deriving DecidableEq, Repr

/-- The outcome of one iteration. -/
structure Step where
  events : List Event
  next : Phase

/-- The errors sent on `errChan` among the events, in order. -/
def sent : List Event → List CheckError
  | [] => []
  | .send e :: rest => e :: sent rest
  | _ :: rest => sent rest

/-- The branch `case c := <-inChan` of `checkLoop` (`main.go`, lines 67-78). -/
def checkLoop.process (env : Env) (c : check) : Step :=
  match c.makeRequest env with
  | (_, some err) =>
    { events := [.send { cause := some err, msg := "cannot make request", c := c }],
      next := .idle }
  | (req, none) =>
    match env.Do req with
    | (_, some err) =>
      { events := [.httpDo req,
          .send { cause := some err, msg := "cannot execute request", c := c }],
        next := .idle }
    | (res, none) =>
      match c.Validate with
      | none => { events := [.httpDo req], next := .panicked }
      | some validate =>
        match validate res with
        | (msg, false) =>
          { events := [.httpDo req, .validate res,
              .send { cause := none, msg := msg, c := c }],
            next := .idle }
        | (_, true) => { events := [.httpDo req, .validate res], next := .idle }

/-- Which branch of the `select` of `checkLoop` runs. -/
inductive Selected where
  | recv (c : check)
  | done

/-- One iteration of the `for { select { ... } }` of `checkLoop`
(`main.go`, lines 65-84). -/
def checkLoop.iteration (env : Env) : Selected → Step
  | .recv c => checkLoop.process env c
  | .done => { events := [.closeIn, .closeErr], next := .terminated }

/-- An environment in which every request is built and every call returns a
response of status 500. -/
def envStatus500 : Env where
  NewRequest := fun method url => .ok { Method := method, URL := url, Header := Header.empty }
  Do := fun _ => (some ⟨500⟩, none)

/-- An environment in which every request is built and no call gets through. -/
def envUnreachable : Env where
  NewRequest := fun method url => .ok { Method := method, URL := url, Header := Header.empty }
  Do := fun _ => (none, some "dial tcp: connection refused")

/-- An environment in which no request can be built. -/
def envBadURL : Env where
  NewRequest := fun _ _ => .error "parse: invalid URL"
  Do := fun _ => (some ⟨200⟩, none)

/-- The draft `newCheck` starts from, `&check{Method: http.MethodGet, Validate:
generallySucceeds}`. -/
def initialDraft : check :=
  { URL := "", Method := "GET", Headers := none, Validate := some generallySucceeds }

/-- The builder as the specification words it: the non-nil entries of the
option list, folded from left to right over the initial draft. -/
def newCheckFold (opts : List option) : check :=
  (opts.filterMap id).foldl (fun draft f => f draft) initialDraft

/-! ## Reading an argument list -/

/-- The method a call writes, for the calls that set the method: `optMethod` and
the six verb shortcuts. -/
def OptCall.methodArg : OptCall → Option String
  | .optMethod m => some m
  | .optGet => some "GET"
  | .optPut => some "PUT"
  | .optPost => some "POST"
  | .optDelete => some "DELETE"
  | .optPatch => some "PATCH"
  | .optOptions => some "OPTIONS"
  | _ => none

/-- The URL a call writes, for the one call that sets the URL. -/
def OptCall.urlArg : OptCall → Option String
  | .optURL u => some u
  | _ => none

/-- The validator a call writes, for the calls that set the validator:
`optValidate`, `optExpectCode`, `optSuccess`, `optFailure`, `optForbidden`. -/
def OptCall.validateArg : OptCall → Option (Option validator)
  | .optValidate v => some v
  | .optExpectCode codes => some (some (expectResponseCode codes))
  | .optSuccess => some (some generallySucceeds)
  | .optFailure => some (some generallyFails)
  | .optForbidden => some (some (expectResponseCode [403]))
  | _ => none

/-- The last written value in an argument list, reading each call with `arg`:
the value of the rightmost entry that is a call for which `arg` gives one. -/
def lastArg {α : Type} (arg : OptCall → Option α) : List (Option OptCall) → Option α
  | [] => none
  | a :: rest =>
    match lastArg arg rest with
    | some x => some x
    | none => a.bind arg

/-- The values a copy loop over `entries` adds under the request key `K`: those of
every entry whose key has canonical form `K`, in the order visited. -/
def valuesUnder (K : String) : List (String × List String) → List String
  | [] => []
  | (k, v) :: rest =>
    if CanonicalMIMEHeaderKey k = K then v ++ valuesUnder K rest else valuesUnder K rest

/-- The loop of `checkLoop` over a sequence of selections, each with the world it
meets: iterations follow one another while the goroutine is back at its
`select`; once it has returned or panicked nothing more happens. -/
def checkLoop.run : Phase → List (Env × Selected) → Step
  | .idle, (env, sel) :: rest =>
    { events := (checkLoop.iteration env sel).events
        ++ (checkLoop.run (checkLoop.iteration env sel).next rest).events,
      next := (checkLoop.run (checkLoop.iteration env sel).next rest).next }
  | phase, _ => { events := [], next := phase }

/-- The four fields of a check. -/
inductive Field where
  | method
  | url
  | validator
  | headers
deriving DecidableEq, Repr

/-- The field a call writes. -/
def OptCall.target : OptCall → Field
  | .optMethod _ => .method
  | .optURL _ => .url
  | .optHdr _ => .headers
  | .optSetHdr _ _ => .headers
  | .optAddHdr _ _ => .headers
  | .optValidate _ => .validator
  | .optGet => .method
  | .optPut => .method
  | .optPost => .method
  | .optDelete => .method
  | .optPatch => .method
  | .optOptions => .method
  | .optExpectCode _ => .validator
  | .optSuccess => .validator
  | .optFailure => .validator
  | .optForbidden => .validator

/-- Two checks are the same Go value: equal URL, method and validator, header maps
both nil or both not, and the same reading of every header key (a Go map has
no order of its own). -/
def check.same (a b : check) : Prop :=
  a.URL = b.URL ∧ a.Method = b.Method ∧ a.Validate = b.Validate ∧
    (a.Headers = none ↔ b.Headers = none) ∧ ∀ k, a.hdrLookup k = b.hdrLookup k

/-- The pass through the loop body reaches the call `c.Validate(res)` of
`main.go`, line 76, with a nil `Validate`: the request was built, `cl.Do`
returned no error, and the check has no validator. -/
def checkLoop.callsNilValidate (env : Env) (c : check) : Bool :=
  (c.makeRequest env).2.isNone && (env.Do (c.makeRequest env).1).2.isNone && c.Validate.isNone

/-- The map key a call writes, for the two calls that write one entry of the
header map: the key as given for `optSetHdr`, its canonical form for
`optAddHdr`.  `optHdr` replaces the whole map and has no such key. -/
def OptCall.hdrKey : OptCall → Option String
  | .optSetHdr k _ => some k
  | .optAddHdr k _ => some (CanonicalMIMEHeaderKey k)
  | _ => none

/-- Two calls are independent: they write different fields, or each writes one
entry of the header map and the two keys differ. -/
def OptCall.independent (a b : OptCall) : Bool :=
  decide (a.target ≠ b.target) ||
    match a.hdrKey, b.hdrKey with
    | some ka, some kb => decide (ka ≠ kb)
    | _, _ => false

/-! ## Validators: theorems -/

/-- The scan of `expectResponseCode` answers membership of the status code. -/
theorem expectResponseCode.scan_eq_true_iff (status : Int) (codes : List Int) :
    expectResponseCode.scan status codes = true ↔ status ∈ codes := by
  induction codes with
  | nil => simp [expectResponseCode.scan]
  | cons code rest ih =>
    unfold expectResponseCode.scan
    by_cases h : code = status
    · simp [h]
    · have h1 : ¬ status = code := fun e => h e.symm
      simp [h, h1, ih]

/-- C1: on a response with status code `n`, `generallySucceeds` passes exactly
when `200 ≤ n < 400`, and when it fails its message is
`unexpected response code <n> (expected success)` with `<n>` in decimal. -/
theorem generallySucceeds_pass_iff (r : Response) :
    ((generallySucceeds (some r)).2 = true ↔ (200 ≤ r.StatusCode ∧ r.StatusCode < 400)) ∧
    ((generallySucceeds (some r)).2 = false →
      (generallySucceeds (some r)).1
        = "unexpected response code " ++ fmtD r.StatusCode ++ " (expected success)") := by
  unfold generallySucceeds
  by_cases h : StatusOK ≤ r.StatusCode ∧ r.StatusCode < StatusBadRequest
  · have h1 : 200 ≤ r.StatusCode ∧ r.StatusCode < 400 := h
    simp [h, h1]
  · have h1 : ¬ (200 ≤ r.StatusCode ∧ r.StatusCode < 400) := h
    dsimp only
    rw [if_neg h]
    exact ⟨⟨fun e => Bool.noConfusion e, fun e => absurd e h1⟩, fun _ => rfl⟩

/-- Witness of C1 at status 500: the verdict is fail and the message is
`unexpected response code 500 (expected success)`. -/
theorem generallySucceeds_pass_iff_witness :
    (generallySucceeds (some ⟨500⟩)).2 = false ∧
    (generallySucceeds (some ⟨500⟩)).1 = "unexpected response code 500 (expected success)" :=
  ⟨by decide, ((generallySucceeds_pass_iff ⟨500⟩).2 (by decide)).trans (by decide)⟩

/-- C2: on a response with any status code, `generallyFails` passes exactly when
`generallySucceeds` fails, that is exactly when the code is not in `[200, 400)`. -/
theorem generallyFails_complement (r : Response) :
    ((generallyFails (some r)).2 = true ↔ (generallySucceeds (some r)).2 = false) ∧
    ((generallyFails (some r)).2 = true ↔ ¬ (200 ≤ r.StatusCode ∧ r.StatusCode < 400)) := by
  unfold generallyFails generallySucceeds
  by_cases h : StatusOK ≤ r.StatusCode ∧ r.StatusCode < StatusBadRequest
  · have h1 : 200 ≤ r.StatusCode ∧ r.StatusCode < 400 := h
    simp [h, h1]
  · have h1 : ¬ (200 ≤ r.StatusCode ∧ r.StatusCode < 400) := h
    dsimp only
    rw [if_neg h, if_neg h]
    exact ⟨⟨fun _ => rfl, fun _ => rfl⟩, ⟨fun _ => h1, fun _ => rfl⟩⟩

/-- C3: on a response with status code `n`, `expectResponseCode cs` passes exactly
when `n` is an element of `cs` (empty and repeating lists included), and when it
fails its message is `unexpected response code <n> (expected <cs>)` with `<cs>` the
list in brackets, in decimal, space separated, in the order supplied. -/
theorem expectResponseCode_pass_iff (cs : List Int) (r : Response) :
    ((expectResponseCode cs (some r)).2 = true ↔ r.StatusCode ∈ cs) ∧
    ((expectResponseCode cs (some r)).2 = false →
      (expectResponseCode cs (some r)).1
        = "unexpected response code " ++ fmtD r.StatusCode ++ " (expected "
            ++ ("[" ++ " ".intercalate (cs.map fmtD) ++ "]") ++ ")") := by
  unfold expectResponseCode
  have hs := expectResponseCode.scan_eq_true_iff r.StatusCode cs
  by_cases h : expectResponseCode.scan r.StatusCode cs = true
  · simp [h, hs.mp h]
  · have hm : ¬ r.StatusCode ∈ cs := fun m => h (hs.mpr m)
    dsimp only
    rw [if_neg h]
    exact ⟨⟨fun e => Bool.noConfusion e, fun e => absurd e hm⟩, fun _ => rfl⟩

/-- Witness of C3: `expectResponseCode [200, 201]` passes on 200 and on 201, and on
404 fails with `unexpected response code 404 (expected [200 201])`. -/
theorem expectResponseCode_pass_iff_witness :
    (expectResponseCode [200, 201] (some ⟨200⟩)).2 = true ∧
    (expectResponseCode [200, 201] (some ⟨201⟩)).2 = true ∧
    (expectResponseCode [200, 201] (some ⟨404⟩)).2 = false ∧
    (expectResponseCode [200, 201] (some ⟨404⟩)).1
      = "unexpected response code 404 (expected [200 201])" :=
  ⟨(expectResponseCode_pass_iff [200, 201] ⟨200⟩).1.mpr (by decide),
   (expectResponseCode_pass_iff [200, 201] ⟨201⟩).1.mpr (by decide),
   by decide,
   ((expectResponseCode_pass_iff [200, 201] ⟨404⟩).2 (by decide)).trans (by decide)⟩

/-- C4: on a missing response every validator of the library returns the message
`missing response` and the verdict fail, whatever the list given to
`expectResponseCode`. -/
theorem validators_missing_response (cs : List Int) :
    generallySucceeds none = ("missing response", false) ∧
    generallyFails none = ("missing response", false) ∧
    expectResponseCode cs none = ("missing response", false) :=
  ⟨rfl, rfl, rfl⟩

/-! ## The check loop: theorems -/

/-- C5: when the request of a check `c` is built and `cl.Do` returns a response and
no error, one pass through the loop body calls `c.Validate` on that response;
if the validator reports failure the pass sends exactly one `CheckError`, with
the validator's message, no cause (`Unwrap` is nil) and `c` as its check; if the
validator reports success the pass sends nothing.  Either way the loop is back
at its `select`. -/
theorem checkLoop_process_validate (env : Env) (c : check) (req : Option Request)
    (res : Option Response) (validate : validator)
    (hreq : c.makeRequest env = (req, none)) (hdo : env.Do req = (res, none))
    (hv : c.Validate = some validate) :
    ((validate res).2 = false →
      (checkLoop.process env c).events
        = [.httpDo req, .validate res,
            .send { cause := none, msg := (validate res).1, c := c }] ∧
      sent (checkLoop.process env c).events
        = [{ cause := none, msg := (validate res).1, c := c }] ∧
      (sent (checkLoop.process env c).events).map CheckError.Unwrap = [none]) ∧
    ((validate res).2 = true →
      (checkLoop.process env c).events = [.httpDo req, .validate res] ∧
      sent (checkLoop.process env c).events = []) ∧
    (checkLoop.process env c).next = Phase.idle := by
  unfold checkLoop.process
  rw [hreq]
  dsimp only
  rw [hdo]
  dsimp only
  rw [hv]
  dsimp only
  rcases hvr : validate res with ⟨msg, ok⟩
  cases ok
  · exact ⟨fun _ => ⟨rfl, rfl, rfl⟩, fun e => Bool.noConfusion e, rfl⟩
  · exact ⟨fun e => Bool.noConfusion e, fun _ => ⟨rfl, rfl⟩, rfl⟩

/-- Witness of C5: a check built with `optSuccess` whose call returns status 500
sends exactly one error, with no cause, whose message is
`unexpected response code 500 (expected success)`; that message holds `500` and
`expected success`. -/
theorem checkLoop_process_validate_witness :
    (sent (checkLoop.process envStatus500 (newCheck [optURL "http://x", optSuccess])).events).map
        CheckError.msg = ["unexpected response code 500 (expected success)"] ∧
    (sent (checkLoop.process envStatus500 (newCheck [optURL "http://x", optSuccess])).events).map
        CheckError.Unwrap = [none] ∧
    "unexpected response code 500 (expected success)"
      = "unexpected response code " ++ "500" ++ " (" ++ "expected success" ++ ")" := by
  have h := (checkLoop_process_validate envStatus500 (newCheck [optURL "http://x", optSuccess])
    (some { Method := "GET", URL := "http://x", Header := Header.empty }) (some ⟨500⟩)
    generallySucceeds rfl rfl rfl).1 (by decide)
  refine ⟨?_, h.2.2, by decide⟩
  rw [h.2.1]
  decide

/-- C6: if building the request of `c` fails with error `e`, one pass through the
loop body does nothing but send one `CheckError` with message
`cannot make request` and cause `e` (no call of `cl.Do`, no call of the
validator); if the request is built and `cl.Do` fails with error `e`, the pass
calls `cl.Do` and then sends one `CheckError` with message
`cannot execute request` and cause `e`, which is not nil (no call of the
validator).  In both cases the error reports the URL and the method of `c`, and
the loop is back at its `select`. -/
theorem checkLoop_process_failure (env : Env) (c : check) :
    (∀ req e, c.makeRequest env = (req, some e) →
      (checkLoop.process env c).events
        = [.send { cause := some e, msg := "cannot make request", c := c }] ∧
      sent (checkLoop.process env c).events
        = [{ cause := some e, msg := "cannot make request", c := c }] ∧
      (sent (checkLoop.process env c).events).map CheckError.URL = [c.URL] ∧
      (sent (checkLoop.process env c).events).map CheckError.Method = [c.Method] ∧
      (checkLoop.process env c).next = Phase.idle) ∧
    (∀ req res e, c.makeRequest env = (req, none) → env.Do req = (res, some e) →
      (checkLoop.process env c).events
        = [.httpDo req, .send { cause := some e, msg := "cannot execute request", c := c }] ∧
      sent (checkLoop.process env c).events
        = [{ cause := some e, msg := "cannot execute request", c := c }] ∧
      (sent (checkLoop.process env c).events).map CheckError.Unwrap = [some e] ∧
      (sent (checkLoop.process env c).events).map CheckError.URL = [c.URL] ∧
      (sent (checkLoop.process env c).events).map CheckError.Method = [c.Method] ∧
      (checkLoop.process env c).next = Phase.idle) := by
  refine ⟨?_, ?_⟩
  · intro req e hreq
    unfold checkLoop.process
    rw [hreq]
    exact ⟨rfl, rfl, rfl, rfl, rfl⟩
  · intro req res e hreq hdo
    unfold checkLoop.process
    rw [hreq]
    dsimp only
    rw [hdo]
    exact ⟨rfl, rfl, rfl, rfl, rfl, rfl⟩

/-- Witness of C6: with a URL that cannot be parsed the only event is the send of
`cannot make request`; with an endpoint that cannot be reached the error sent
is `cannot execute request` with its cause. -/
theorem checkLoop_process_failure_witness :
    (sent (checkLoop.process envBadURL (newCheck [optURL "::"])).events).map CheckError.Error
      = ["cannot make request because parse: invalid URL"] ∧
    (checkLoop.process envBadURL (newCheck [optURL "::"])).events.length = 1 ∧
    (sent (checkLoop.process envUnreachable (newCheck [optURL "http://x"])).events).map
        CheckError.Unwrap = [some "dial tcp: connection refused"] ∧
    (sent (checkLoop.process envUnreachable (newCheck [optURL "http://x"])).events).map
        CheckError.msg = ["cannot execute request"] ∧
    (sent (checkLoop.process envUnreachable (newCheck [optURL "http://x"])).events).map
        CheckError.URL = ["http://x"] := by
  have h1 := (checkLoop_process_failure envBadURL (newCheck [optURL "::"])).1
    none "parse: invalid URL" rfl
  have h2 := (checkLoop_process_failure envUnreachable (newCheck [optURL "http://x"])).2
    (some { Method := "GET", URL := "http://x", Header := Header.empty }) none
    "dial tcp: connection refused" rfl rfl
  refine ⟨?_, ?_, h2.2.2.1, ?_, h2.2.2.2.1⟩
  · rw [h1.2.1]
    decide
  · rw [h1.1]
    rfl
  · rw [h2.2.1]
    decide

/-! ## The builder: theorems -/

/-- The option loop run on a concatenation is the loop on the second list,
started from the result of the loop on the first. -/
theorem newCheck.loop_append (c : check) (xs ys : List option) :
    newCheck.loop c (xs ++ ys) = newCheck.loop (newCheck.loop c xs) ys := by
  induction xs generalizing c with
  | nil => rfl
  | cons opt rest ih =>
    cases opt with
    | none => exact ih c
    | some f => exact ih (f c)

/-- The option loop is the left fold of the non-nil entries. -/
theorem newCheck.loop_eq_foldl (c : check) (opts : List option) :
    newCheck.loop c opts = (opts.filterMap id).foldl (fun draft f => f draft) c := by
  induction opts generalizing c with
  | nil => rfl
  | cons opt rest ih =>
    cases opt with
    | none => exact ih c
    | some f => exact ih (f c)

/-- A call with its arguments present keeps a non-empty method and a non-nil
validator in the draft. -/
theorem optCall_eval_keeps_present (call : OptCall) (h : call.argsPresent = true) (c : check)
    (hc : c.Method ≠ "" ∧ c.Validate.isSome = true) :
    (newCheck.loop c [call.eval]).Method ≠ "" ∧
    (newCheck.loop c [call.eval]).Validate.isSome = true := by
  cases call <;>
    simp_all [OptCall.eval, OptCall.argsPresent, newCheck.loop, optMethod, optURL, optHdr,
      optSetHdr, optAddHdr, optValidate, optGet, optPut, optPost, optDelete, optPatch,
      optOptions, optExpectCode, optSuccess, optFailure, optForbidden, MethodGet, MethodPut,
      MethodPost, MethodDelete, MethodPatch, MethodOptions]

/-- The invariant of `optCall_eval_keeps_present` along the whole option loop. -/
theorem newCheck.loop_keeps_present (args : List (Option OptCall))
    (h : ∀ call, some call ∈ args → call.argsPresent = true) (c : check)
    (hc : c.Method ≠ "" ∧ c.Validate.isSome = true) :
    (newCheck.loop c (evalArgs args)).Method ≠ "" ∧
    (newCheck.loop c (evalArgs args)).Validate.isSome = true := by
  induction args generalizing c with
  | nil => exact hc
  | cons a rest ih =>
    have hrest : ∀ call, some call ∈ rest → call.argsPresent = true :=
      fun call hm => h call (List.mem_cons_of_mem _ hm)
    cases a with
    | none => exact ih hrest c hc
    | some call =>
      have hstep := optCall_eval_keeps_present call (h call (List.mem_cons_self _ _)) c hc
      have happ := newCheck.loop_append c [call.eval] (evalArgs rest)
      have hcons : evalArgs (some call :: rest) = [call.eval] ++ evalArgs rest := rfl
      rw [hcons, happ]
      exact ih hrest _ hstep

/-- Counterexample to C7 as stated: `newCheck(optMethod(""))` has the empty method,
and `newCheck(optValidate(nil))` has a nil validator. -/
theorem newCheck_present_counterexample :
    ¬ ((newCheck (evalArgs [some (OptCall.optMethod "")])).Method ≠ "" ∧
        (newCheck (evalArgs [some (OptCall.optMethod "")])).Validate.isSome = true) ∧
    ¬ ((newCheck (evalArgs [some (OptCall.optValidate none)])).Method ≠ "" ∧
        (newCheck (evalArgs [some (OptCall.optValidate none)])).Validate.isSome = true) := by
  constructor
  · intro h
    exact h.1 rfl
  · intro h
    exact Bool.noConfusion h.2

/-- C7, amended: for every argument list made of nil entries and of calls of the
options of `check.go` in which each `optMethod` is given a non-empty method and
each `optValidate` a non-nil validator, the check returned by `newCheck` has a
non-empty `Method` and a non-nil `Validate`. -/
theorem newCheck_present (args : List (Option OptCall))
    (h : ∀ call, some call ∈ args → call.argsPresent = true) :
    (newCheck (evalArgs args)).Method ≠ "" ∧
    (newCheck (evalArgs args)).Validate.isSome = true :=
  newCheck.loop_keeps_present args h _ ⟨by decide, rfl⟩

/-- Witness of C7, amended: a list with a nil entry, a method, headers and a
validator. -/
theorem newCheck_present_witness :
    (newCheck (evalArgs [none, some (OptCall.optMethod "HEAD"), some (OptCall.optAddHdr "A" "1"),
        none, some OptCall.optForbidden])).Method ≠ "" ∧
    (newCheck (evalArgs [none, some (OptCall.optMethod "HEAD"), some (OptCall.optAddHdr "A" "1"),
        none, some OptCall.optForbidden])).Validate.isSome = true :=
  newCheck_present _ (by
    intro call hm
    simp at hm
    rcases hm with rfl | rfl | rfl <;> rfl)

/-- C8: `newCheck` is the left-to-right fold of the non-nil entries of its argument
list over the initial draft `{URL: "", Method: "GET", Headers: nil, Validate:
generallySucceeds}`; a nil entry inserted at any position changes nothing. -/
theorem newCheck_eq_newCheckFold (opts before after : List option) :
    newCheck opts = newCheckFold opts ∧
    newCheckFold opts
      = (opts.filterMap id).foldl (fun draft f => f draft)
          { URL := "", Method := "GET", Headers := none, Validate := some generallySucceeds } ∧
    newCheck (before ++ none :: after) = newCheck (before ++ after) := by
  refine ⟨newCheck.loop_eq_foldl _ opts, rfl, ?_⟩
  unfold newCheck
  rw [newCheck.loop_append, newCheck.loop_append]
  rfl

/-! ## Header options: theorems -/

/-- The first-match read of an association list, one entry at a time. -/
theorem lookup_cons_ite (k1 k : String) (v : List String) (rest : List (String × List String)) :
    List.lookup k1 ((k, v) :: rest) = if k1 = k then some v else List.lookup k1 rest := by
  rw [List.lookup_cons]
  by_cases h : k1 = k
  · have hb : (k1 == k) = true := by simpa using h
    rw [hb, if_pos h]
  · have hb : (k1 == k) = false := by simpa using h
    rw [hb, if_neg h]

/-- Reading the key just written gives the value written. -/
theorem Header.lookup_set_self (h : Header) (k : String) (v : List String) :
    (h.set k v).lookup k = some v := by
  obtain ⟨entries⟩ := h
  unfold Header.set Header.lookup
  dsimp only
  induction entries with
  | nil => rw [Header.setEntries, lookup_cons_ite, if_pos rfl]
  | cons e rest ih =>
    obtain ⟨k1, v1⟩ := e
    unfold Header.setEntries
    by_cases hk : k1 = k
    · rw [if_pos hk, lookup_cons_ite, if_pos rfl]
    · have hk1 : ¬ k = k1 := fun e => hk e.symm
      rw [if_neg hk, lookup_cons_ite, if_neg hk1, ih]

/-- Writing one key leaves the reading of every other key as it was. -/
theorem Header.lookup_set_of_ne (h : Header) (k : String) (v : List String) (k1 : String)
    (hne : k1 ≠ k) : (h.set k v).lookup k1 = h.lookup k1 := by
  obtain ⟨entries⟩ := h
  unfold Header.set Header.lookup
  dsimp only
  induction entries with
  | nil => rw [Header.setEntries, lookup_cons_ite, if_neg hne]
  | cons e rest ih =>
    obtain ⟨k2, v2⟩ := e
    unfold Header.setEntries
    by_cases hk : k2 = k
    · subst hk
      rw [if_pos rfl, lookup_cons_ite, if_neg hne, lookup_cons_ite, if_neg hne]
    · rw [if_neg hk, lookup_cons_ite, lookup_cons_ite, ih]

/-- The header reads of a draft after `optSetHdr k v` has run on it. -/
theorem optSetHdr_hdrLookup (c : check) (k : String) (v : List String) (k1 : String) :
    (newCheck.loop c [optSetHdr k v]).hdrLookup k1
      = if k1 = k then some v else c.hdrLookup k1 := by
  unfold optSetHdr newCheck.loop newCheck.loop check.hdrLookup
  dsimp only
  by_cases hk : k1 = k
  · subst hk
    simp [Header.lookup_set_self]
  · rw [if_neg hk, Header.lookup_set_of_ne _ _ _ _ hk]
    cases c.Headers with
    | none => rfl
    | some h => rfl

/-- The header reads of a draft after `optAddHdr k v` has run on it. -/
theorem optAddHdr_hdrLookup (c : check) (k v : String) (k1 : String) :
    (newCheck.loop c [optAddHdr k v]).hdrLookup k1
      = if k1 = CanonicalMIMEHeaderKey k then
          some (c.hdrValues (CanonicalMIMEHeaderKey k) ++ [v])
        else c.hdrLookup k1 := by
  unfold optAddHdr newCheck.loop newCheck.loop check.hdrValues check.hdrLookup Header.Add
  dsimp only
  by_cases hk : k1 = CanonicalMIMEHeaderKey k
  · subst hk
    rw [if_pos rfl, Header.lookup_set_self]
    cases c.Headers with
    | none => rfl
    | some h => rfl
  · rw [if_neg hk, Header.lookup_set_of_ne _ _ _ _ hk]
    cases c.Headers with
    | none => rfl
    | some h => rfl

/-- Counterexample to C9 as stated, at the key `a`: after `optAddHdr("a", "1")` on
a fresh check the values of header `a` are still none, not `["1"]` (the value
went to the key `A`); and after `optSetHdr("a", ["0"])`, `optAddHdr("a", "1")` the
values of header `a` are `["0"]`, not `["0", "1"]`. -/
theorem optAddHdr_appends_counterexample :
    ¬ ((newCheck ([] ++ [optAddHdr "a" "1"])).hdrValues "a"
          = (newCheck []).hdrValues "a" ++ ["1"] ∧
        ∀ k1, k1 ≠ "a" →
          (newCheck ([] ++ [optAddHdr "a" "1"])).hdrLookup k1 = (newCheck []).hdrLookup k1) ∧
    ¬ ((newCheck ([optSetHdr "a" ["0"]] ++ [optAddHdr "a" "1"])).hdrValues "a"
          = (newCheck [optSetHdr "a" ["0"]]).hdrValues "a" ++ ["1"]) ∧
    (newCheck [optAddHdr "a" "1"]).hdrValues "a" = [] ∧
    (newCheck [optAddHdr "a" "1"]).hdrValues "A" = ["1"] := by
  refine ⟨fun h => absurd h.1 (by decide), by decide, by decide, by decide⟩

/-- C9, amended: `optAddHdr(k, v)` appends under the canonical form of its key.
After any option sequence, the values of header `CanonicalMIMEHeaderKey(k)` are
its previous values followed by `v`, and the reading of every other key is
unchanged; so for a key that is its own canonical form the values of header `k`
are its previous values followed by `v`. -/
theorem optAddHdr_appends (opts : List option) (k v : String) :
    (newCheck (opts ++ [optAddHdr k v])).hdrValues (CanonicalMIMEHeaderKey k)
      = (newCheck opts).hdrValues (CanonicalMIMEHeaderKey k) ++ [v] ∧
    (∀ k1, k1 ≠ CanonicalMIMEHeaderKey k →
      (newCheck (opts ++ [optAddHdr k v])).hdrLookup k1 = (newCheck opts).hdrLookup k1) ∧
    (CanonicalMIMEHeaderKey k = k →
      (newCheck (opts ++ [optAddHdr k v])).hdrValues k = (newCheck opts).hdrValues k ++ [v] ∧
      ∀ k1, k1 ≠ k →
        (newCheck (opts ++ [optAddHdr k v])).hdrLookup k1 = (newCheck opts).hdrLookup k1) := by
  have hstep : ∀ k1, (newCheck (opts ++ [optAddHdr k v])).hdrLookup k1
      = if k1 = CanonicalMIMEHeaderKey k then
          some ((newCheck opts).hdrValues (CanonicalMIMEHeaderKey k) ++ [v])
        else (newCheck opts).hdrLookup k1 := by
    intro k1
    unfold newCheck
    rw [newCheck.loop_append]
    exact optAddHdr_hdrLookup _ k v k1
  have hself : (newCheck (opts ++ [optAddHdr k v])).hdrValues (CanonicalMIMEHeaderKey k)
      = (newCheck opts).hdrValues (CanonicalMIMEHeaderKey k) ++ [v] := by
    show ((newCheck (opts ++ [optAddHdr k v])).hdrLookup (CanonicalMIMEHeaderKey k)).getD [] = _
    rw [hstep, if_pos rfl]
    rfl
  have hother : ∀ k1, k1 ≠ CanonicalMIMEHeaderKey k →
      (newCheck (opts ++ [optAddHdr k v])).hdrLookup k1 = (newCheck opts).hdrLookup k1 := by
    intro k1 hne
    rw [hstep, if_neg hne]
  refine ⟨hself, hother, ?_⟩
  intro hcanon
  rw [hcanon] at hself hother
  exact ⟨hself, hother⟩

/-- Witness of C9, amended: `newCheck(optPost(), optURL("http://x"), optAddHdr("A",
"1"), optAddHdr("A", "2"))` has method `POST`, URL `http://x` and header `A` equal
to `["1", "2"]`. -/
theorem optAddHdr_appends_witness :
    (newCheck [optPost, optURL "http://x", optAddHdr "A" "1", optAddHdr "A" "2"]).Method
      = "POST" ∧
    (newCheck [optPost, optURL "http://x", optAddHdr "A" "1", optAddHdr "A" "2"]).URL
      = "http://x" ∧
    (newCheck [optPost, optURL "http://x", optAddHdr "A" "1", optAddHdr "A" "2"]).hdrValues "A"
      = ["1", "2"] :=
  ⟨by decide, by decide,
   (((optAddHdr_appends [optPost, optURL "http://x", optAddHdr "A" "1"] "A" "2").2.2
      (by decide)).1).trans (by decide)⟩

/-- C10: `optSetHdr` overwrites.  After any option sequence, `optSetHdr(k, v1)`
followed by `optSetHdr(k, v2)` leaves header `k` present with exactly the values
`v2`, and the reading of every other key is what it was before the two options
ran. -/
theorem optSetHdr_overwrites (opts : List option) (k : String) (v1 v2 : List String) :
    (newCheck (opts ++ [optSetHdr k v1, optSetHdr k v2])).hdrLookup k = some v2 ∧
    (newCheck (opts ++ [optSetHdr k v1, optSetHdr k v2])).hdrValues k = v2 ∧
    ∀ k1, k1 ≠ k →
      (newCheck (opts ++ [optSetHdr k v1, optSetHdr k v2])).hdrLookup k1
        = (newCheck opts).hdrLookup k1 := by
  have hstep : ∀ k1, (newCheck (opts ++ [optSetHdr k v1, optSetHdr k v2])).hdrLookup k1
      = if k1 = k then some v2 else (newCheck opts).hdrLookup k1 := by
    intro k1
    have hsplit : opts ++ [optSetHdr k v1, optSetHdr k v2]
        = (opts ++ [optSetHdr k v1]) ++ [optSetHdr k v2] := by simp
    unfold newCheck
    rw [hsplit, newCheck.loop_append, newCheck.loop_append, optSetHdr_hdrLookup,
      optSetHdr_hdrLookup]
    by_cases hk : k1 = k
    · rw [if_pos hk, if_pos hk]
    · rw [if_neg hk, if_neg hk, if_neg hk]
  have hself := hstep k
  rw [if_pos rfl] at hself
  refine ⟨hself, ?_, ?_⟩
  · show ((newCheck (opts ++ [optSetHdr k v1, optSetHdr k v2])).hdrLookup k).getD [] = v2
    rw [hself]
    rfl
  · intro k1 hne
    rw [hstep, if_neg hne]

/-- Witness of C10: `optSetHdr("A", ["1"])` followed by `optSetHdr("A", ["2"])`
yields header `A` equal to `["2"]`, and the key `B` set before them keeps its
values. -/
theorem optSetHdr_overwrites_witness :
    (newCheck [optSetHdr "A" ["1"], optSetHdr "A" ["2"]]).hdrValues "A" = ["2"] ∧
    (newCheck ([optSetHdr "B" ["0"]] ++ [optSetHdr "A" ["1"], optSetHdr "A" ["2"]])).hdrLookup "B"
      = some ["0"] :=
  ⟨(optSetHdr_overwrites [] "A" ["1"] ["2"]).2.1,
   ((optSetHdr_overwrites [optSetHdr "B" ["0"]] "A" ["1"] ["2"]).2.2 "B" (by decide)).trans
     (by decide)⟩

/-! ## Rendering of errors: theorems -/

/-- C11: the text of a `CheckError` with message `m` and check `c` is
`<m> [<c.Method> <c.URL>]` when it has no cause, and `<m> because <cause>`, with
the text of the cause, when it has one. -/
theorem CheckError_Error_render (m : String) (c : check) (cause : GoError) :
    CheckError.Error { cause := none, msg := m, c := c }
      = m ++ " [" ++ c.Method ++ " " ++ c.URL ++ "]" ∧
    CheckError.Error { cause := some cause, msg := m, c := c } = m ++ " because " ++ cause ∧
    CheckError.Error
        { cause := none
          msg := "unexpected response code 500 (expected success)"
          c := newCheck [optURL "http://x"] }
      = "unexpected response code 500 (expected success) [GET http://x]" ∧
    CheckError.Error
        { cause := some "dial tcp: connection refused"
          msg := "cannot execute request"
          c := newCheck [optURL "http://x"] }
      = "cannot execute request because dial tcp: connection refused" :=
  ⟨rfl, rfl, by decide, by decide⟩

/-! ## Defaults and last writer: theorems -/

/-- What one call does to the method of the draft. -/
theorem optCall_eval_Method (call : OptCall) (c : check) :
    (newCheck.loop c [call.eval]).Method = (call.methodArg).getD c.Method := by
  cases call <;> rfl

/-- What one call does to the URL of the draft. -/
theorem optCall_eval_URL (call : OptCall) (c : check) :
    (newCheck.loop c [call.eval]).URL = (call.urlArg).getD c.URL := by
  cases call <;> rfl

/-- What one call does to the validator of the draft. -/
theorem optCall_eval_Validate (call : OptCall) (c : check) :
    (newCheck.loop c [call.eval]).Validate = (call.validateArg).getD c.Validate := by
  cases call <;> rfl

/-- The last written value of a list, one entry at a time. -/
theorem lastArg_cons {α : Type} (arg : OptCall → Option α) (a : Option OptCall)
    (rest : List (Option OptCall)) :
    lastArg arg (a :: rest)
      = match lastArg arg rest with
        | some x => some x
        | none => a.bind arg := rfl

/-- A field read by `proj` after the whole option loop is the last value written
to it, or the value of the starting draft when no call writes it. -/
theorem newCheck.loop_lastArg {α : Type} (proj : check → α) (arg : OptCall → Option α)
    (hstep : ∀ (call : OptCall) (c : check),
      proj (newCheck.loop c [call.eval]) = (arg call).getD (proj c))
    (args : List (Option OptCall)) (c : check) :
    proj (newCheck.loop c (evalArgs args)) = (lastArg arg args).getD (proj c) := by
  induction args generalizing c with
  | nil => rfl
  | cons a rest ih =>
    cases a with
    | none =>
      have h1 : newCheck.loop c (evalArgs (none :: rest))
          = newCheck.loop c (evalArgs rest) := rfl
      rw [h1, ih c, lastArg_cons]
      cases lastArg arg rest <;> rfl
    | some call =>
      have hcons : evalArgs (some call :: rest) = [call.eval] ++ evalArgs rest := rfl
      rw [hcons, newCheck.loop_append, ih, hstep, lastArg_cons]
      cases lastArg arg rest <;> rfl

/-- No call of the list writes through `arg`: nothing is the last written value. -/
theorem lastArg_eq_none {α : Type} (arg : OptCall → Option α) (args : List (Option OptCall))
    (h : ∀ call, some call ∈ args → arg call = none) : lastArg arg args = none := by
  induction args with
  | nil => rfl
  | cons a rest ih =>
    rw [lastArg_cons, ih (fun call hm => h call (List.mem_cons_of_mem _ hm))]
    cases a with
    | none => rfl
    | some call => exact h call (List.mem_cons_self _ _)

/-- The last written value of a list split at a writing call after which no call
writes: the value of that call. -/
theorem lastArg_split {α : Type} (arg : OptCall → Option α) (before after : List (Option OptCall))
    (call : OptCall) (x : α) (hcall : arg call = some x)
    (hafter : ∀ later, some later ∈ after → arg later = none) :
    lastArg arg (before ++ some call :: after) = some x := by
  induction before with
  | nil =>
    show lastArg arg (some call :: after) = some x
    rw [lastArg_cons, lastArg_eq_none arg after hafter]
    exact hcall
  | cons a rest ih =>
    show lastArg arg (a :: (rest ++ some call :: after)) = some x
    rw [lastArg_cons, ih]

/-- C12: a check built from an argument list with no method-setting call has
method `GET`; one built from a list with no validator-setting call has
`generallySucceeds` as validator, which it therefore agrees with on every
response, nil included; and `newCheck()` is `{URL: "", Method: "GET", Headers:
nil, Validate: generallySucceeds}`. -/
theorem newCheck_defaults (args : List (Option OptCall)) :
    ((∀ call, some call ∈ args → call.methodArg = none) →
      (newCheck (evalArgs args)).Method = "GET") ∧
    ((∀ call, some call ∈ args → call.validateArg = none) →
      (newCheck (evalArgs args)).Validate = some generallySucceeds ∧
      ∃ validate, (newCheck (evalArgs args)).Validate = some validate ∧
        ∀ r : Option Response, validate r = generallySucceeds r) ∧
    newCheck []
      = { URL := "", Method := "GET", Headers := none, Validate := some generallySucceeds } := by
  refine ⟨?_, ?_, rfl⟩
  · intro h
    have hl := newCheck.loop_lastArg check.Method OptCall.methodArg optCall_eval_Method args
      { URL := "", Method := MethodGet, Headers := none, Validate := some generallySucceeds }
    rw [lastArg_eq_none _ args h] at hl
    exact hl
  · intro h
    have hl := newCheck.loop_lastArg check.Validate OptCall.validateArg optCall_eval_Validate
      args { URL := "", Method := MethodGet, Headers := none, Validate := some generallySucceeds }
    rw [lastArg_eq_none _ args h] at hl
    exact ⟨hl, generallySucceeds, hl, fun _ => rfl⟩

/-- Witness of C12: a list with a nil entry, a URL and two header calls has the
default method and the default validator. -/
theorem newCheck_defaults_witness :
    (newCheck (evalArgs [some (OptCall.optURL "http://x"), none,
        some (OptCall.optAddHdr "A" "1"), some (OptCall.optSetHdr "B" ["2"])])).Method = "GET" ∧
    (newCheck (evalArgs [some (OptCall.optURL "http://x"), none,
        some (OptCall.optAddHdr "A" "1"), some (OptCall.optSetHdr "B" ["2"])])).Validate
      = some generallySucceeds :=
  ⟨(newCheck_defaults _).1 (by
      intro call hm
      simp at hm
      rcases hm with rfl | rfl | rfl <;> rfl),
   ((newCheck_defaults _).2.1 (by
      intro call hm
      simp at hm
      rcases hm with rfl | rfl | rfl <;> rfl)).1⟩

/-- C13: last writer wins.  In an argument list split at a call after which no call
writes the same field, the method of the check built is the method of that
call, the URL is the URL of that call, the validator is the validator of that
call, whatever stands before it; `newCheck` returns a check for every argument
list, there being no error result. -/
theorem newCheck_last_writer (before after : List (Option OptCall)) (call : OptCall) :
    (∀ m, call.methodArg = some m →
      (∀ later, some later ∈ after → later.methodArg = none) →
      (newCheck (evalArgs (before ++ some call :: after))).Method = m) ∧
    (∀ u, call.urlArg = some u →
      (∀ later, some later ∈ after → later.urlArg = none) →
      (newCheck (evalArgs (before ++ some call :: after))).URL = u) ∧
    (∀ v, call.validateArg = some v →
      (∀ later, some later ∈ after → later.validateArg = none) →
      (newCheck (evalArgs (before ++ some call :: after))).Validate = v) := by
  refine ⟨?_, ?_, ?_⟩
  · intro m hm hafter
    have hl := newCheck.loop_lastArg check.Method OptCall.methodArg optCall_eval_Method
      (before ++ some call :: after)
      { URL := "", Method := MethodGet, Headers := none, Validate := some generallySucceeds }
    rw [lastArg_split _ before after call m hm hafter] at hl
    exact hl
  · intro u hu hafter
    have hl := newCheck.loop_lastArg check.URL OptCall.urlArg optCall_eval_URL
      (before ++ some call :: after)
      { URL := "", Method := MethodGet, Headers := none, Validate := some generallySucceeds }
    rw [lastArg_split _ before after call u hu hafter] at hl
    exact hl
  · intro v hv hafter
    have hl := newCheck.loop_lastArg check.Validate OptCall.validateArg optCall_eval_Validate
      (before ++ some call :: after)
      { URL := "", Method := MethodGet, Headers := none, Validate := some generallySucceeds }
    rw [lastArg_split _ before after call v hv hafter] at hl
    exact hl

/-- Witness of C13: among `optPost`, `optURL("http://a")`, `optSuccess`, `optPut`,
`optURL("http://b")`, `optForbidden` and a trailing header call, the method is
`PUT`, the URL `http://b`, the validator that of `optForbidden`. -/
theorem newCheck_last_writer_witness :
    (newCheck (evalArgs ([some OptCall.optPost, some (OptCall.optURL "http://a"),
        some OptCall.optSuccess] ++ some OptCall.optPut ::
        [some (OptCall.optURL "http://b"), some OptCall.optForbidden,
          some (OptCall.optAddHdr "A" "1")]))).Method = "PUT" ∧
    (newCheck (evalArgs ([some OptCall.optPost, some (OptCall.optURL "http://a"),
        some OptCall.optSuccess, some OptCall.optPut] ++ some (OptCall.optURL "http://b") ::
        [some OptCall.optForbidden, some (OptCall.optAddHdr "A" "1")]))).URL = "http://b" ∧
    (newCheck (evalArgs ([some OptCall.optPost, some (OptCall.optURL "http://a"),
        some OptCall.optSuccess, some OptCall.optPut, some (OptCall.optURL "http://b")] ++
        some OptCall.optForbidden :: [some (OptCall.optAddHdr "A" "1")]))).Validate
      = some (expectResponseCode [403]) :=
  ⟨(newCheck_last_writer _ _ _).1 "PUT" rfl (by
      intro later hm
      simp at hm
      rcases hm with rfl | rfl | rfl <;> rfl),
   (newCheck_last_writer _ _ _).2.1 "http://b" rfl (by
      intro later hm
      simp at hm
      rcases hm with rfl | rfl <;> rfl),
   (newCheck_last_writer _ _ _).2.2 (some (expectResponseCode [403])) rfl (by
      intro later hm
      simp at hm
      rcases hm with rfl
      rfl)⟩

/-! ## The request builder: theorems -/

/-- The values read after a map write. -/
theorem Header.values_set (h : Header) (k : String) (v : List String) (K : String) :
    (h.set k v).values K = if K = k then v else h.values K := by
  unfold Header.values
  by_cases hk : K = k
  · subst hk
    rw [Header.lookup_set_self, if_pos rfl]
    rfl
  · rw [Header.lookup_set_of_ne _ _ _ _ hk, if_neg hk]

/-- The values read after `Add`. -/
theorem Header.values_Add (h : Header) (key value K : String) :
    (h.Add key value).values K
      = if K = CanonicalMIMEHeaderKey key then h.values K ++ [value] else h.values K := by
  unfold Header.Add
  dsimp only
  rw [Header.values_set]
  by_cases hk : K = CanonicalMIMEHeaderKey key
  · rw [if_pos hk, if_pos hk, hk]
  · rw [if_neg hk, if_neg hk]

/-- The values read after the inner copy loop. -/
theorem makeRequest_addValues_values (k : String) (vs : List String) (h : Header) (K : String) :
    (check.makeRequest.addValues k vs h).values K
      = if K = CanonicalMIMEHeaderKey k then h.values K ++ vs else h.values K := by
  induction vs generalizing h with
  | nil =>
    unfold check.makeRequest.addValues
    by_cases hk : K = CanonicalMIMEHeaderKey k
    · rw [if_pos hk, List.append_nil]
    · rw [if_neg hk]
  | cons vi rest ih =>
    unfold check.makeRequest.addValues
    rw [ih, Header.values_Add]
    by_cases hk : K = CanonicalMIMEHeaderKey k
    · simp only [if_pos hk, List.append_assoc]
      rfl
    · simp only [if_neg hk]

/-- The values read after the outer copy loop: what the request held, followed by
the values of the entries of that canonical key, in the order visited. -/
theorem makeRequest_copyHeaders_values (entries : List (String × List String)) (h : Header)
    (K : String) :
    (check.makeRequest.copyHeaders entries h).values K = h.values K ++ valuesUnder K entries := by
  induction entries generalizing h with
  | nil =>
    unfold check.makeRequest.copyHeaders valuesUnder
    rw [List.append_nil]
  | cons e rest ih =>
    obtain ⟨k, v⟩ := e
    unfold check.makeRequest.copyHeaders valuesUnder
    rw [ih, makeRequest_addValues_values]
    by_cases hk : CanonicalMIMEHeaderKey k = K
    · rw [if_pos hk.symm, if_pos hk, List.append_assoc]
    · have hk1 : ¬ K = CanonicalMIMEHeaderKey k := fun e => hk e.symm
      rw [if_neg hk1, if_neg hk]

/-- No entry of that canonical key: nothing is added under it. -/
theorem valuesUnder_eq_nil (K : String) (entries : List (String × List String))
    (h : ∀ e ∈ entries, CanonicalMIMEHeaderKey e.1 ≠ K) : valuesUnder K entries = [] := by
  induction entries with
  | nil => rfl
  | cons e rest ih =>
    obtain ⟨k, v⟩ := e
    unfold valuesUnder
    rw [if_neg (h (k, v) (List.mem_cons_self _ _)),
      ih (fun e he => h e (List.mem_cons_of_mem _ he))]

/-- One entry of that canonical key, among entries of distinct keys: its values
are what is added under it. -/
theorem valuesUnder_unique (K : String) (entries : List (String × List String))
    (k : String) (v : List String) (hmem : (k, v) ∈ entries)
    (hnd : (entries.map Prod.fst).Nodup) (hK : CanonicalMIMEHeaderKey k = K)
    (huniq : ∀ e ∈ entries, CanonicalMIMEHeaderKey e.1 = K → e.1 = k) :
    valuesUnder K entries = v := by
  induction entries with
  | nil => exact absurd hmem (List.not_mem_nil _)
  | cons e rest ih =>
    obtain ⟨k1, v1⟩ := e
    rw [List.map_cons, List.nodup_cons] at hnd
    unfold valuesUnder
    rcases List.mem_cons.mp hmem with heq | hin
    · have hk : k1 = k := (congrArg Prod.fst heq).symm
      have hv : v1 = v := (congrArg Prod.snd heq).symm
      subst hk
      subst hv
      have hrest : ∀ e ∈ rest, CanonicalMIMEHeaderKey e.1 ≠ K := by
        intro e he hc
        have hkey := huniq e (List.mem_cons_of_mem _ he) hc
        have hin : e.1 ∈ rest.map Prod.fst := List.mem_map_of_mem Prod.fst he
        rw [hkey] at hin
        exact hnd.1 hin
      rw [if_pos hK, valuesUnder_eq_nil K rest hrest, List.append_nil]
    · have hne : k1 ≠ k := by
        intro e
        subst e
        exact hnd.1 (List.mem_map.mpr ⟨(k1, v), hin, rfl⟩)
      have hc : ¬ CanonicalMIMEHeaderKey k1 = K :=
        fun hc => hne (huniq (k1, v1) (List.mem_cons_self _ _) hc)
      rw [if_neg hc]
      exact ih hin hnd.2 (fun e he => huniq e (List.mem_cons_of_mem _ he))

/-- The entries a range visits are the keys not yet seen, each with the value a
read of the map gives. -/
theorem Header.range.go_mem (seen : List String) (entries : List (String × List String))
    (k : String) (v : List String) :
    (k, v) ∈ Header.range.go seen entries ↔ k ∉ seen ∧ entries.lookup k = some v := by
  induction entries generalizing seen with
  | nil => simp [Header.range.go]
  | cons e rest ih =>
    obtain ⟨k1, v1⟩ := e
    unfold Header.range.go
    rw [lookup_cons_ite]
    by_cases hs : k1 ∈ seen
    · rw [if_pos hs, ih]
      by_cases hk : k = k1
      · subst hk
        simp [hs]
      · rw [if_neg hk]
    · rw [if_neg hs, List.mem_cons, ih]
      by_cases hk : k = k1
      · subst hk
        simp [hs, eq_comm]
      · simp [hk]

/-- A range visits each key once. -/
theorem Header.range.go_nodup (seen : List String) (entries : List (String × List String)) :
    ((Header.range.go seen entries).map Prod.fst).Nodup := by
  induction entries generalizing seen with
  | nil => simp [Header.range.go]
  | cons e rest ih =>
    obtain ⟨k1, v1⟩ := e
    unfold Header.range.go
    by_cases hs : k1 ∈ seen
    · rw [if_pos hs]
      exact ih seen
    · rw [if_neg hs, List.map_cons, List.nodup_cons]
      refine ⟨?_, ih (k1 :: seen)⟩
      intro hm
      obtain ⟨e, he, hfst⟩ := List.mem_map.mp hm
      obtain ⟨k2, v2⟩ := e
      have hk : k2 = k1 := hfst
      subst hk
      exact ((Header.range.go_mem (k2 :: seen) rest k2 v2).mp he).1 (List.mem_cons_self _ _)

/-- The copy loop run over the keys of a map in any order: a key that is the only
one of its canonical form brings exactly its values under that form. -/
theorem makeRequest_copyHeaders_any_order (hdr : Header) (order : List (String × List String))
    (hperm : order.Perm hdr.range) (h0 : Header) (k : String) (v : List String)
    (hlk : hdr.lookup k = some v)
    (huniq : ∀ k1, hdr.lookup k1 ≠ none →
      CanonicalMIMEHeaderKey k1 = CanonicalMIMEHeaderKey k → k1 = k) :
    (check.makeRequest.copyHeaders order h0).values (CanonicalMIMEHeaderKey k)
      = h0.values (CanonicalMIMEHeaderKey k) ++ v := by
  rw [makeRequest_copyHeaders_values]
  have hmem : (k, v) ∈ order :=
    hperm.mem_iff.mpr ((Header.range.go_mem [] hdr.entries k v).mpr ⟨List.not_mem_nil _, hlk⟩)
  have hnd : (order.map Prod.fst).Nodup :=
    ((hperm.map Prod.fst).nodup_iff).mpr (Header.range.go_nodup [] hdr.entries)
  have hu : ∀ e ∈ order,
      CanonicalMIMEHeaderKey e.1 = CanonicalMIMEHeaderKey k → e.1 = k := by
    intro e he hc
    obtain ⟨k1, v1⟩ := e
    have hr := (Header.range.go_mem [] hdr.entries k1 v1).mp (hperm.mem_iff.mp he)
    have hsome : hdr.lookup k1 ≠ none := by
      unfold Header.lookup
      rw [hr.2]
      exact Option.some_ne_none _
    exact huniq k1 hsome hc
  rw [valuesUnder_unique _ order k v hmem hnd rfl hu]

/-- The copy loop run over the keys of a map in any order adds nothing under a
key that is the canonical form of none of them. -/
theorem makeRequest_copyHeaders_untouched (hdr : Header) (order : List (String × List String))
    (hperm : order.Perm hdr.range) (h0 : Header) (K : String)
    (hK : ∀ k1, hdr.lookup k1 ≠ none → CanonicalMIMEHeaderKey k1 ≠ K) :
    (check.makeRequest.copyHeaders order h0).values K = h0.values K := by
  rw [makeRequest_copyHeaders_values, valuesUnder_eq_nil, List.append_nil]
  intro e he
  obtain ⟨k1, v1⟩ := e
  have hr := (Header.range.go_mem [] hdr.entries k1 v1).mp (hperm.mem_iff.mp he)
  have hsome : hdr.lookup k1 ≠ none := by
    unfold Header.lookup
    rw [hr.2]
    exact Option.some_ne_none _
  exact hK k1 hsome

/-- Counterexample to C14 as stated: the check with header `A` equal to `["1"]` and
header `a` equal to `["2"]` gets a request, built without error, whose values
for `A` are `["1", "2"]`, not `["1"]`, and whose map has nothing under `a`; were
the map ranged over in the other order the values for `A` would be
`["2", "1"]`. -/
theorem makeRequest_copies_headers_counterexample :
    ((newCheck [optURL "http://x", optSetHdr "A" ["1"], optSetHdr "a" ["2"]]).makeRequest
        envStatus500).2 = none ∧
    (newCheck [optURL "http://x", optSetHdr "A" ["1"], optSetHdr "a" ["2"]]).hdrValues "A"
      = ["1"] ∧
    (newCheck [optURL "http://x", optSetHdr "A" ["1"], optSetHdr "a" ["2"]]).hdrValues "a"
      = ["2"] ∧
    (((newCheck [optURL "http://x", optSetHdr "A" ["1"], optSetHdr "a" ["2"]]).makeRequest
        envStatus500).1.map fun req => req.Header.values "A") = some ["1", "2"] ∧
    (((newCheck [optURL "http://x", optSetHdr "A" ["1"], optSetHdr "a" ["2"]]).makeRequest
        envStatus500).1.map fun req => req.Header.values "a") = some [] ∧
    (check.makeRequest.copyHeaders [("a", ["2"]), ("A", ["1"])] Header.empty).values "A"
      = ["2", "1"] ∧
    ¬ (((newCheck [optURL "http://x", optSetHdr "A" ["1"], optSetHdr "a" ["2"]]).makeRequest
          envStatus500).1.map fun req => req.Header.values "A")
        = some ((newCheck [optURL "http://x", optSetHdr "A" ["1"],
            optSetHdr "a" ["2"]]).hdrValues "A") := by
  refine ⟨by decide, by decide, by decide, by decide, by decide, by decide, by decide⟩

/-- C14, amended: when `http.NewRequest(c.Method, c.URL, nil)` returns a request `r`,
`c.makeRequest()` returns that request, with its method and URL, and no error;
for every header key `k` of `c` that is the only key of `c` of its canonical form,
the request's values for `CanonicalMIMEHeaderKey(k)` are those `r` already had
followed by exactly `c`'s values for `k`, in the same order; a request key that
is the canonical form of no key of `c` keeps the values it had.  The same holds
whatever the order in which the map is ranged over. -/
theorem makeRequest_copies_headers (env : Env) (c : check) (r : Request)
    (hnew : env.NewRequest c.Method c.URL = .ok r) :
    ∃ req, c.makeRequest env = (some req, none) ∧ req.Method = r.Method ∧ req.URL = r.URL ∧
      (∀ k v, c.hdrLookup k = some v →
        (∀ k1, c.hdrLookup k1 ≠ none →
          CanonicalMIMEHeaderKey k1 = CanonicalMIMEHeaderKey k → k1 = k) →
        req.Header.values (CanonicalMIMEHeaderKey k)
          = r.Header.values (CanonicalMIMEHeaderKey k) ++ v) ∧
      (∀ K, (∀ k1, c.hdrLookup k1 ≠ none → CanonicalMIMEHeaderKey k1 ≠ K) →
        req.Header.values K = r.Header.values K) ∧
      (∀ hdr order k v, c.Headers = some hdr → order.Perm hdr.range →
        c.hdrLookup k = some v →
        (∀ k1, c.hdrLookup k1 ≠ none →
          CanonicalMIMEHeaderKey k1 = CanonicalMIMEHeaderKey k → k1 = k) →
        (check.makeRequest.copyHeaders order r.Header).values (CanonicalMIMEHeaderKey k)
          = r.Header.values (CanonicalMIMEHeaderKey k) ++ v) := by
  unfold check.makeRequest
  rw [hnew]
  dsimp only
  refine ⟨_, rfl, rfl, rfl, ?_, ?_, ?_⟩
  · intro k v hlk huniq
    unfold check.hdrLookup at hlk huniq
    cases hH : c.Headers with
    | none =>
      rw [hH] at hlk
      exact absurd hlk (by simp)
    | some hdr =>
      rw [hH] at hlk huniq
      exact makeRequest_copyHeaders_any_order hdr hdr.range (List.Perm.refl _) r.Header k v
        hlk huniq
  · intro K hK
    unfold check.hdrLookup at hK
    cases hH : c.Headers with
    | none => rfl
    | some hdr =>
      rw [hH] at hK
      exact makeRequest_copyHeaders_untouched hdr hdr.range (List.Perm.refl _) r.Header K hK
  · intro hdr order k v hH hperm hlk huniq
    unfold check.hdrLookup at hlk huniq
    rw [hH] at hlk huniq
    exact makeRequest_copyHeaders_any_order hdr order hperm r.Header k v hlk huniq

/-- Witness of C14, amended: the check with header `Accept` equal to `["a", "b"]` gets
a request for `GET http://x` whose values for `Accept` are `["a", "b"]`. -/
theorem makeRequest_copies_headers_witness :
    (((newCheck [optURL "http://x", optSetHdr "Accept" ["a", "b"]]).makeRequest envStatus500).1.map
        fun req => (req.Method, req.URL, req.Header.values "Accept"))
      = some ("GET", "http://x", ["a", "b"]) := by
  obtain ⟨req, hreq, hm, hu, hcopy, _, _⟩ :=
    makeRequest_copies_headers envStatus500
      (newCheck [optURL "http://x", optSetHdr "Accept" ["a", "b"]])
      { Method := "GET", URL := "http://x", Header := Header.empty } rfl
  have hv := hcopy "Accept" ["a", "b"] (by decide) (by
    intro k1 hk1 _
    have hl : (newCheck [optURL "http://x", optSetHdr "Accept" ["a", "b"]]).hdrLookup k1
        = List.lookup k1 [("Accept", ["a", "b"])] := rfl
    rw [hl, lookup_cons_ite] at hk1
    by_cases hk : k1 = "Accept"
    · exact hk
    · rw [if_neg hk] at hk1
      exact absurd rfl hk1)
  have hc : CanonicalMIMEHeaderKey "Accept" = "Accept" := by decide
  rw [hc] at hv
  rw [hreq]
  show some (req.Method, req.URL, req.Header.values "Accept") = _
  rw [hm, hu, hv]
  rfl

/-- C15: when `http.NewRequest` rejects the method or the URL of `c` with error `e`,
`c.makeRequest()` returns the nil request together with `e` itself; on no
check does it return both a request and an error; and it returns no error
only when `http.NewRequest` returned none. -/
theorem makeRequest_failure (env : Env) (c : check) :
    (∀ e, env.NewRequest c.Method c.URL = .error e → c.makeRequest env = (none, some e)) ∧
    ¬ ((c.makeRequest env).1 ≠ none ∧ (c.makeRequest env).2 ≠ none) ∧
    ((c.makeRequest env).2 = none → ∃ r, env.NewRequest c.Method c.URL = .ok r) := by
  unfold check.makeRequest
  cases hnew : env.NewRequest c.Method c.URL with
  | error e =>
    refine ⟨?_, ?_, ?_⟩
    · intro e1 he
      cases he
      rfl
    · intro h
      exact h.1 rfl
    · intro h
      exact absurd h (Option.some_ne_none e)
  | ok r =>
    refine ⟨?_, ?_, ?_⟩
    · intro e he
      cases he
    · intro h
      exact h.2 rfl
    · intro _
      exact ⟨r, rfl⟩

/-- Witness of C15: with a URL that cannot be parsed, `makeRequest` returns the nil
request and the parse error. -/
theorem makeRequest_failure_witness :
    (newCheck [optURL "::"]).makeRequest envBadURL = (none, some "parse: invalid URL") :=
  (makeRequest_failure envBadURL (newCheck [optURL "::"])).1 "parse: invalid URL" rfl

/-! ## Messages and verdicts: theorems -/

/-- A text that starts with `unexpected response code ` is not empty. -/
theorem unexpected_ne_empty (x y : String) : "unexpected response code " ++ x ++ y ≠ "" := by
  intro h
  have hl := congrArg String.length h
  rw [String.length_append, String.length_append] at hl
  have h25 : "unexpected response code ".length = 25 := by decide
  have h0 : "".length = 0 := by decide
  rw [h25, h0] at hl
  omega

/-- C16: for `generallySucceeds`, `generallyFails` and `expectResponseCode cs` with any
list `cs`, on every response, nil or with any status code, the message is the
empty string exactly when the verdict is pass; so every failing verdict has a
non-empty message. -/
theorem validators_message_empty_iff_pass (cs : List Int) (r : Option Response) :
    ((generallySucceeds r).1 = "" ↔ (generallySucceeds r).2 = true) ∧
    ((generallyFails r).1 = "" ↔ (generallyFails r).2 = true) ∧
    ((expectResponseCode cs r).1 = "" ↔ (expectResponseCode cs r).2 = true) := by
  have hmissing : "missing response" ≠ "" := by decide
  cases r with
  | none =>
    exact ⟨⟨fun h => absurd h hmissing, fun h => Bool.noConfusion h⟩,
      ⟨fun h => absurd h hmissing, fun h => Bool.noConfusion h⟩,
      ⟨fun h => absurd h hmissing, fun h => Bool.noConfusion h⟩⟩
  | some r =>
    unfold generallySucceeds generallyFails expectResponseCode
    dsimp only
    refine ⟨?_, ?_, ?_⟩
    · by_cases h : StatusOK ≤ r.StatusCode ∧ r.StatusCode < StatusBadRequest
      · rw [if_pos h]
        exact ⟨fun _ => rfl, fun _ => rfl⟩
      · rw [if_neg h]
        exact ⟨fun e => absurd e (unexpected_ne_empty _ _), fun e => Bool.noConfusion e⟩
    · by_cases h : StatusOK ≤ r.StatusCode ∧ r.StatusCode < StatusBadRequest
      · rw [if_pos h]
        exact ⟨fun e => absurd e (unexpected_ne_empty _ _), fun e => Bool.noConfusion e⟩
      · rw [if_neg h]
        exact ⟨fun _ => rfl, fun _ => rfl⟩
    · by_cases h : expectResponseCode.scan r.StatusCode cs = true
      · rw [if_pos h]
        exact ⟨fun _ => rfl, fun _ => rfl⟩
      · rw [if_neg h]
        refine ⟨fun e => absurd e ?_, fun e => Bool.noConfusion e⟩
        have hne := unexpected_ne_empty (fmtD r.StatusCode)
          (" (expected " ++ fmtIntSlice cs ++ ")")
        intro e
        apply hne
        rw [← e]
        simp only [String.append_assoc]

/-! ## Termination of the loop: theorems -/

/-- One pass through the loop body ends at the `select`, unless it calls a nil
`Validate`; then it ends in the panic, having sent and closed nothing. -/
theorem checkLoop.process_next (env : Env) (c : check) :
    (checkLoop.callsNilValidate env c = false → (checkLoop.process env c).next = Phase.idle) ∧
    (checkLoop.callsNilValidate env c = true →
      (checkLoop.process env c).next = Phase.panicked ∧
      (checkLoop.process env c).events = [Event.httpDo (c.makeRequest env).1]) := by
  unfold checkLoop.callsNilValidate checkLoop.process
  rcases c.makeRequest env with ⟨req, _ | e⟩
  · dsimp only
    rcases env.Do req with ⟨res, _ | e⟩
    · dsimp only
      cases c.Validate with
      | none => exact ⟨fun h => Bool.noConfusion h, fun _ => ⟨rfl, rfl⟩⟩
      | some validate =>
        dsimp only
        rcases validate res with ⟨msg, ok⟩
        cases ok
        · exact ⟨fun _ => rfl, fun h => Bool.noConfusion h⟩
        · exact ⟨fun _ => rfl, fun h => Bool.noConfusion h⟩
    · exact ⟨fun _ => rfl, fun h => Bool.noConfusion h⟩
  · exact ⟨fun _ => rfl, fun h => Bool.noConfusion h⟩

/-- Once the goroutine has returned, nothing more happens. -/
theorem checkLoop.run_terminated (inputs : List (Env × Selected)) :
    checkLoop.run Phase.terminated inputs = { events := [], next := Phase.terminated } := by
  cases inputs <;> rfl

/-- A run over received checks none of which calls a nil `Validate` ends at the
`select`. -/
theorem checkLoop.run_recv_idle (inputs : List (Env × Selected))
    (hrecv : ∀ p ∈ inputs,
      ∃ c, p.2 = Selected.recv c ∧ checkLoop.callsNilValidate p.1 c = false) :
    (checkLoop.run Phase.idle inputs).next = Phase.idle := by
  induction inputs with
  | nil => rfl
  | cons p rest ih =>
    obtain ⟨env, sel⟩ := p
    obtain ⟨c, hsel, hv⟩ := hrecv (env, sel) (List.mem_cons_self _ _)
    have hsel1 : sel = Selected.recv c := hsel
    subst hsel1
    have hnext : (checkLoop.iteration env (Selected.recv c)).next = Phase.idle :=
      (checkLoop.process_next env c).1 hv
    show (checkLoop.run (checkLoop.iteration env (Selected.recv c)).next rest).next = Phase.idle
    rw [hnext]
    exact ih (fun p hp => hrecv p (List.mem_cons_of_mem _ hp))

/-- The events of a run over inputs put end to end, when the first part ends at
the `select`. -/
theorem checkLoop.run_append (xs ys : List (Env × Selected))
    (hidle : (checkLoop.run Phase.idle xs).next = Phase.idle) :
    (checkLoop.run Phase.idle (xs ++ ys)).events
        = (checkLoop.run Phase.idle xs).events ++ (checkLoop.run Phase.idle ys).events ∧
    (checkLoop.run Phase.idle (xs ++ ys)).next = (checkLoop.run Phase.idle ys).next := by
  induction xs with
  | nil => exact ⟨rfl, rfl⟩
  | cons p rest ih =>
    obtain ⟨env, sel⟩ := p
    have hnext : (checkLoop.run (checkLoop.iteration env sel).next rest).next = Phase.idle :=
      hidle
    cases hph : (checkLoop.iteration env sel).next with
    | idle =>
      rw [hph] at hnext
      have h := ih hnext
      show (checkLoop.iteration env sel).events
            ++ (checkLoop.run (checkLoop.iteration env sel).next (rest ++ ys)).events
          = ((checkLoop.iteration env sel).events
            ++ (checkLoop.run (checkLoop.iteration env sel).next rest).events)
            ++ (checkLoop.run Phase.idle ys).events ∧
        (checkLoop.run (checkLoop.iteration env sel).next (rest ++ ys)).next
          = (checkLoop.run Phase.idle ys).next
      rw [hph, h.1, h.2, List.append_assoc]
      exact ⟨rfl, rfl⟩
    | terminated =>
      rw [hph, checkLoop.run_terminated] at hnext
      exact Phase.noConfusion hnext
    | panicked =>
      rw [hph] at hnext
      have hp : (checkLoop.run Phase.panicked rest).next = Phase.panicked := by
        cases rest <;> rfl
      rw [hp] at hnext
      exact Phase.noConfusion hnext

/-- Counterexample to C17 as stated: a check whose `Validate` is nil, as
`newCheck(optValidate(nil))` builds it, does not bring the loop back to its
`select` once its request has been answered: the call of the nil function
panics, which ends the loop on a single check, with no cancellation and no
channel closed. -/
theorem checkLoop_returns_idle_counterexample :
    ¬ ((checkLoop.iteration envStatus500
          (Selected.recv (newCheck [optURL "http://x", optValidate none]))).next = Phase.idle) ∧
    (checkLoop.iteration envStatus500
        (Selected.recv (newCheck [optURL "http://x", optValidate none]))).next
      = Phase.panicked ∧
    (checkLoop.run Phase.idle
        [(envStatus500, Selected.recv (newCheck [optURL "http://x", optValidate none])),
          (envStatus500, Selected.done)]).next = Phase.panicked := by
  refine ⟨?_, rfl, rfl⟩
  intro h
  exact Phase.noConfusion h

/-- C17, amended: a check received brings the loop back to its `select` exactly when
the pass does not call a nil `Validate`, whatever its method, URL, headers and
validator and whether building, executing or validating fails; a pass that
calls a nil `Validate` ends the loop in a panic after the HTTP call, with
nothing sent or closed.  The loop leaves its `select` for good only by that
panic or by the cancellation branch, which closes the input and the error
channel and sends nothing; after checks that all come back to the `select`,
cancellation ends the run with the two closes and nothing after. -/
theorem checkLoop_only_cancel_terminates (env : Env) (c : check) (sel : Selected)
    (before after : List (Env × Selected)) :
    ((checkLoop.iteration env (Selected.recv c)).next = Phase.idle ↔
      checkLoop.callsNilValidate env c = false) ∧
    (checkLoop.callsNilValidate env c = true →
      (checkLoop.iteration env (Selected.recv c)).next = Phase.panicked ∧
      (checkLoop.iteration env (Selected.recv c)).events
        = [Event.httpDo (c.makeRequest env).1]) ∧
    ((checkLoop.iteration env sel).next ≠ Phase.idle ↔
      (sel = Selected.done ∨
        ∃ c1, sel = Selected.recv c1 ∧ checkLoop.callsNilValidate env c1 = true)) ∧
    ((checkLoop.iteration env Selected.done).next = Phase.terminated ∧
      (checkLoop.iteration env Selected.done).events = [Event.closeIn, Event.closeErr] ∧
      sent (checkLoop.iteration env Selected.done).events = []) ∧
    ((∀ p ∈ before,
        ∃ c1, p.2 = Selected.recv c1 ∧ checkLoop.callsNilValidate p.1 c1 = false) →
      (checkLoop.run Phase.idle before).next = Phase.idle ∧
      (checkLoop.run Phase.idle (before ++ (env, Selected.done) :: after)).next
        = Phase.terminated ∧
      (checkLoop.run Phase.idle (before ++ (env, Selected.done) :: after)).events
        = (checkLoop.run Phase.idle before).events ++ [Event.closeIn, Event.closeErr]) := by
  have hiff : ∀ c1 : check, (checkLoop.iteration env (Selected.recv c1)).next = Phase.idle ↔
      checkLoop.callsNilValidate env c1 = false := by
    intro c1
    constructor
    · intro hidle
      cases hcall : checkLoop.callsNilValidate env c1 with
      | false => rfl
      | true =>
        have hp : (checkLoop.iteration env (Selected.recv c1)).next = Phase.panicked :=
          ((checkLoop.process_next env c1).2 hcall).1
        rw [hidle] at hp
        exact Phase.noConfusion hp
    · exact (checkLoop.process_next env c1).1
  refine ⟨hiff c, (checkLoop.process_next env c).2, ?_, ⟨rfl, rfl, rfl⟩, ?_⟩
  · cases sel with
    | done =>
      exact ⟨fun _ => Or.inl rfl, fun _ h => Phase.noConfusion h⟩
    | recv c1 =>
      constructor
      · intro hne
        refine Or.inr ⟨c1, rfl, ?_⟩
        cases hcall : checkLoop.callsNilValidate env c1 with
        | true => rfl
        | false => exact absurd ((hiff c1).mpr hcall) hne
      · intro h hidle
        rcases h with h | ⟨c2, hsel, hcall⟩
        · exact Selected.noConfusion h
        · cases hsel
          have hfalse := (hiff c1).mp hidle
          rw [hcall] at hfalse
          exact Bool.noConfusion hfalse
  · intro hrecv
    have hidle := checkLoop.run_recv_idle before hrecv
    have happ := checkLoop.run_append before ((env, Selected.done) :: after) hidle
    have hdone : checkLoop.run Phase.idle ((env, Selected.done) :: after)
        = { events := [Event.closeIn, Event.closeErr], next := Phase.terminated } := by
      show ({ events := [Event.closeIn, Event.closeErr]
                ++ (checkLoop.run Phase.terminated after).events,
              next := (checkLoop.run Phase.terminated after).next } : Step) = _
      rw [checkLoop.run_terminated]
      rfl
    rw [happ.1, happ.2, hdone]
    exact ⟨hidle, rfl, rfl⟩

/-- Witness of C17, amended: three checks, one that cannot be built, one that cannot
be reached and one with a nil `Validate` that cannot be reached either, then a
check answered 500, then cancellation, then one more check: every check comes
back to the `select`, three errors are sent, the channels are closed, the
goroutine has returned. -/
theorem checkLoop_only_cancel_terminates_witness :
    (checkLoop.run Phase.idle
      ([(envBadURL, Selected.recv (newCheck [optURL "::"])),
        (envUnreachable, Selected.recv (newCheck [optURL "http://x", optValidate none])),
        (envStatus500, Selected.recv (newCheck [optURL "http://x"]))]
        ++ (envStatus500, Selected.done)
          :: [(envStatus500, Selected.recv (newCheck [optURL "http://x"]))])).next
      = Phase.terminated ∧
    (sent (checkLoop.run Phase.idle
      ([(envBadURL, Selected.recv (newCheck [optURL "::"])),
        (envUnreachable, Selected.recv (newCheck [optURL "http://x", optValidate none])),
        (envStatus500, Selected.recv (newCheck [optURL "http://x"]))]
        ++ (envStatus500, Selected.done)
          :: [(envStatus500, Selected.recv (newCheck [optURL "http://x"]))])).events).map
        CheckError.msg
      = ["cannot make request", "cannot execute request",
          "unexpected response code 500 (expected success)"] := by
  have h := (checkLoop_only_cancel_terminates envStatus500 (newCheck []) Selected.done
    [(envBadURL, Selected.recv (newCheck [optURL "::"])),
      (envUnreachable, Selected.recv (newCheck [optURL "http://x", optValidate none])),
      (envStatus500, Selected.recv (newCheck [optURL "http://x"]))]
    [(envStatus500, Selected.recv (newCheck [optURL "http://x"]))]).2.2.2.2 (by
      intro p hp
      simp only [List.mem_cons, List.mem_singleton, List.not_mem_nil, or_false] at hp
      rcases hp with rfl | rfl | rfl
      · exact ⟨_, rfl, rfl⟩
      · exact ⟨_, rfl, rfl⟩
      · exact ⟨_, rfl, rfl⟩)
  refine ⟨h.2.1, ?_⟩
  rw [h.2.2]
  decide

/-! ## Convenience options, frame and commutation: theorems -/

/-- C18: on every draft, each verb shortcut acts as `optMethod` with its verb,
`optSuccess` as `optValidate(generallySucceeds)`, `optFailure` as
`optValidate(generallyFails)`, `optExpectCode(cs...)` as
`optValidate(expectResponseCode(cs...))` and `optForbidden` as `optExpectCode(403)`;
the validator `optForbidden` installs passes on a response exactly when its
status code is 403. -/
theorem convenience_options (c : check) (cs : List Int) (r : Response) :
    (newCheck.loop c [optGet] = newCheck.loop c [optMethod "GET"] ∧
      newCheck.loop c [optPut] = newCheck.loop c [optMethod "PUT"] ∧
      newCheck.loop c [optPost] = newCheck.loop c [optMethod "POST"] ∧
      newCheck.loop c [optDelete] = newCheck.loop c [optMethod "DELETE"] ∧
      newCheck.loop c [optPatch] = newCheck.loop c [optMethod "PATCH"] ∧
      newCheck.loop c [optOptions] = newCheck.loop c [optMethod "OPTIONS"]) ∧
    (newCheck.loop c [optSuccess] = newCheck.loop c [optValidate (some generallySucceeds)] ∧
      newCheck.loop c [optFailure] = newCheck.loop c [optValidate (some generallyFails)] ∧
      newCheck.loop c [optExpectCode cs]
        = newCheck.loop c [optValidate (some (expectResponseCode cs))] ∧
      newCheck.loop c [optForbidden] = newCheck.loop c [optExpectCode [403]]) ∧
    ∃ validate, (newCheck.loop c [optForbidden]).Validate = some validate ∧
      ((validate (some r)).2 = true ↔ r.StatusCode = 403) := by
  refine ⟨⟨rfl, rfl, rfl, rfl, rfl, rfl⟩, ⟨rfl, rfl, rfl, rfl⟩,
    expectResponseCode [StatusForbidden], rfl, ?_⟩
  unfold expectResponseCode
  dsimp only
  have hs := expectResponseCode.scan_eq_true_iff r.StatusCode [StatusForbidden]
  have hmem : r.StatusCode ∈ [StatusForbidden] ↔ r.StatusCode = 403 := List.mem_singleton
  by_cases h : expectResponseCode.scan r.StatusCode [StatusForbidden] = true
  · rw [if_pos h]
    exact ⟨fun _ => hmem.mp (hs.mp h), fun _ => rfl⟩
  · rw [if_neg h]
    exact ⟨fun e => Bool.noConfusion e, fun e => absurd (hs.mpr (hmem.mpr e)) h⟩

/-- C19: on every draft, `optMethod` leaves URL, headers and validator as they were;
`optURL` leaves method, headers and validator; `optValidate` leaves URL, method
and headers; `optHdr`, `optSetHdr` and `optAddHdr` leave URL, method and
validator; and each of the three scalar options writes its argument. -/
theorem options_frame (c : check) (m u k x : String) (h : Option Header) (v : List String)
    (val : Option validator) :
    ((newCheck.loop c [optMethod m]).Method = m ∧
      (newCheck.loop c [optMethod m]).URL = c.URL ∧
      (newCheck.loop c [optMethod m]).Headers = c.Headers ∧
      (newCheck.loop c [optMethod m]).Validate = c.Validate) ∧
    ((newCheck.loop c [optURL u]).URL = u ∧
      (newCheck.loop c [optURL u]).Method = c.Method ∧
      (newCheck.loop c [optURL u]).Headers = c.Headers ∧
      (newCheck.loop c [optURL u]).Validate = c.Validate) ∧
    ((newCheck.loop c [optValidate val]).Validate = val ∧
      (newCheck.loop c [optValidate val]).URL = c.URL ∧
      (newCheck.loop c [optValidate val]).Method = c.Method ∧
      (newCheck.loop c [optValidate val]).Headers = c.Headers) ∧
    ((newCheck.loop c [optHdr h]).Headers = h ∧
      (newCheck.loop c [optHdr h]).URL = c.URL ∧
      (newCheck.loop c [optHdr h]).Method = c.Method ∧
      (newCheck.loop c [optHdr h]).Validate = c.Validate) ∧
    ((newCheck.loop c [optSetHdr k v]).URL = c.URL ∧
      (newCheck.loop c [optSetHdr k v]).Method = c.Method ∧
      (newCheck.loop c [optSetHdr k v]).Validate = c.Validate) ∧
    ((newCheck.loop c [optAddHdr k x]).URL = c.URL ∧
      (newCheck.loop c [optAddHdr k x]).Method = c.Method ∧
      (newCheck.loop c [optAddHdr k x]).Validate = c.Validate) :=
  ⟨⟨rfl, rfl, rfl, rfl⟩, ⟨rfl, rfl, rfl, rfl⟩, ⟨rfl, rfl, rfl, rfl⟩, ⟨rfl, rfl, rfl, rfl⟩,
    ⟨rfl, rfl, rfl⟩, ⟨rfl, rfl, rfl⟩⟩

/-- Two calls that write different fields give the same draft in either order. -/
theorem optCall_commute_of_target_ne (c : check) (a b : OptCall) (h : a.target ≠ b.target) :
    newCheck.loop c [a.eval, b.eval] = newCheck.loop c [b.eval, a.eval] := by
  cases a <;> cases b <;> first | rfl | exact absurd rfl h

/-- Every check is the same as itself. -/
theorem check.same_refl (c : check) : check.same c c :=
  ⟨rfl, rfl, rfl, Iff.rfl, fun _ => rfl⟩

/-- A call run on two drafts that are the same gives two drafts that are the
same. -/
theorem optCall_eval_same (call : OptCall) (c d : check) (h : check.same c d) :
    check.same (newCheck.loop c [call.eval]) (newCheck.loop d [call.eval]) := by
  have hval : ∀ K, c.hdrValues K = d.hdrValues K := by
    intro K
    unfold check.hdrValues
    rw [h.2.2.2.2 K]
  have hset : ∀ k v, check.same (newCheck.loop c [optSetHdr k v])
      (newCheck.loop d [optSetHdr k v]) := by
    intro k v
    refine ⟨h.1, h.2.1, h.2.2.1,
      ⟨fun e => Option.noConfusion e, fun e => Option.noConfusion e⟩, ?_⟩
    intro k1
    rw [optSetHdr_hdrLookup, optSetHdr_hdrLookup, h.2.2.2.2 k1]
  have hadd : ∀ k x, check.same (newCheck.loop c [optAddHdr k x])
      (newCheck.loop d [optAddHdr k x]) := by
    intro k x
    refine ⟨h.1, h.2.1, h.2.2.1,
      ⟨fun e => Option.noConfusion e, fun e => Option.noConfusion e⟩, ?_⟩
    intro k1
    rw [optAddHdr_hdrLookup, optAddHdr_hdrLookup, h.2.2.2.2 k1, hval]
  cases call with
  | optSetHdr k v => exact hset k v
  | optAddHdr k x => exact hadd k x
  | optHdr hdr => exact ⟨h.1, h.2.1, h.2.2.1, Iff.rfl, fun _ => rfl⟩
  | optURL u => exact ⟨rfl, h.2.1, h.2.2.1, h.2.2.2.1, h.2.2.2.2⟩
  | optMethod m => exact ⟨h.1, rfl, h.2.2.1, h.2.2.2.1, h.2.2.2.2⟩
  | optGet => exact ⟨h.1, rfl, h.2.2.1, h.2.2.2.1, h.2.2.2.2⟩
  | optPut => exact ⟨h.1, rfl, h.2.2.1, h.2.2.2.1, h.2.2.2.2⟩
  | optPost => exact ⟨h.1, rfl, h.2.2.1, h.2.2.2.1, h.2.2.2.2⟩
  | optDelete => exact ⟨h.1, rfl, h.2.2.1, h.2.2.2.1, h.2.2.2.2⟩
  | optPatch => exact ⟨h.1, rfl, h.2.2.1, h.2.2.2.1, h.2.2.2.2⟩
  | optOptions => exact ⟨h.1, rfl, h.2.2.1, h.2.2.2.1, h.2.2.2.2⟩
  | optValidate v => exact ⟨h.1, h.2.1, rfl, h.2.2.2.1, h.2.2.2.2⟩
  | optExpectCode cs => exact ⟨h.1, h.2.1, rfl, h.2.2.2.1, h.2.2.2.2⟩
  | optSuccess => exact ⟨h.1, h.2.1, rfl, h.2.2.2.1, h.2.2.2.2⟩
  | optFailure => exact ⟨h.1, h.2.1, rfl, h.2.2.2.1, h.2.2.2.2⟩
  | optForbidden => exact ⟨h.1, h.2.1, rfl, h.2.2.2.1, h.2.2.2.2⟩

/-- An argument list run on two drafts that are the same gives two drafts that
are the same. -/
theorem evalArgs_same (args : List (Option OptCall)) (c d : check) (h : check.same c d) :
    check.same (newCheck.loop c (evalArgs args)) (newCheck.loop d (evalArgs args)) := by
  induction args generalizing c d with
  | nil => exact h
  | cons a rest ih =>
    cases a with
    | none => exact ih c d h
    | some call =>
      have hcons : evalArgs (some call :: rest) = [call.eval] ++ evalArgs rest := rfl
      rw [hcons, newCheck.loop_append, newCheck.loop_append]
      exact ih _ _ (optCall_eval_same call c d h)

/-- What a call that writes one entry of the header map does to a draft: the
scalar fields stay, the map is not nil, the key written reads a value made
from the values it had, every other key reads as before. -/
theorem optCall_hdrKey_effect (call : OptCall) (K : String) (hK : call.hdrKey = some K) :
    ∃ f : List String → List String, ∀ c : check,
      (newCheck.loop c [call.eval]).URL = c.URL ∧
      (newCheck.loop c [call.eval]).Method = c.Method ∧
      (newCheck.loop c [call.eval]).Validate = c.Validate ∧
      (newCheck.loop c [call.eval]).Headers ≠ none ∧
      ∀ k, (newCheck.loop c [call.eval]).hdrLookup k
        = if k = K then some (f (c.hdrValues K)) else c.hdrLookup k := by
  cases call with
  | optSetHdr k v =>
    have hk : k = K := Option.some.inj hK
    subst hk
    exact ⟨fun _ => v, fun c => ⟨rfl, rfl, rfl, fun e => Option.noConfusion e,
      fun k1 => optSetHdr_hdrLookup c k v k1⟩⟩
  | optAddHdr k x =>
    have hk : CanonicalMIMEHeaderKey k = K := Option.some.inj hK
    subst hk
    exact ⟨fun old => old ++ [x], fun c => ⟨rfl, rfl, rfl, fun e => Option.noConfusion e,
      fun k1 => optAddHdr_hdrLookup c k x k1⟩⟩
  | optHdr hdr => exact Option.noConfusion hK
  | optURL u => exact Option.noConfusion hK
  | optMethod m => exact Option.noConfusion hK
  | optGet => exact Option.noConfusion hK
  | optPut => exact Option.noConfusion hK
  | optPost => exact Option.noConfusion hK
  | optDelete => exact Option.noConfusion hK
  | optPatch => exact Option.noConfusion hK
  | optOptions => exact Option.noConfusion hK
  | optValidate v => exact Option.noConfusion hK
  | optExpectCode cs => exact Option.noConfusion hK
  | optSuccess => exact Option.noConfusion hK
  | optFailure => exact Option.noConfusion hK
  | optForbidden => exact Option.noConfusion hK

/-- Two calls that write entries of different keys give the same draft in either
order. -/
theorem optCall_commute_of_hdrKey_ne (c : check) (a b : OptCall) (ka kb : String)
    (ha : a.hdrKey = some ka) (hb : b.hdrKey = some kb) (hne : ka ≠ kb) :
    check.same (newCheck.loop c [a.eval, b.eval]) (newCheck.loop c [b.eval, a.eval]) := by
  obtain ⟨fa, hfa⟩ := optCall_hdrKey_effect a ka ha
  obtain ⟨fb, hfb⟩ := optCall_hdrKey_effect b kb hb
  have hab : newCheck.loop c [a.eval, b.eval]
      = newCheck.loop (newCheck.loop c [a.eval]) [b.eval] :=
    newCheck.loop_append c [a.eval] [b.eval]
  have hba : newCheck.loop c [b.eval, a.eval]
      = newCheck.loop (newCheck.loop c [b.eval]) [a.eval] :=
    newCheck.loop_append c [b.eval] [a.eval]
  have hvb : (newCheck.loop c [a.eval]).hdrValues kb = c.hdrValues kb := by
    unfold check.hdrValues
    rw [(hfa c).2.2.2.2 kb, if_neg (fun e => hne e.symm)]
  have hva : (newCheck.loop c [b.eval]).hdrValues ka = c.hdrValues ka := by
    unfold check.hdrValues
    rw [(hfb c).2.2.2.2 ka, if_neg hne]
  rw [hab, hba]
  refine ⟨?_, ?_, ?_, ?_, ?_⟩
  · rw [(hfb _).1, (hfa _).1, (hfa _).1, (hfb _).1]
  · rw [(hfb _).2.1, (hfa _).2.1, (hfa _).2.1, (hfb _).2.1]
  · rw [(hfb _).2.2.1, (hfa _).2.2.1, (hfa _).2.2.1, (hfb _).2.2.1]
  · exact ⟨fun e => absurd e (hfb _).2.2.2.1, fun e => absurd e (hfa _).2.2.2.1⟩
  · intro k
    rw [(hfb (newCheck.loop c [a.eval])).2.2.2.2 k, (hfa (newCheck.loop c [b.eval])).2.2.2.2 k,
      (hfa c).2.2.2.2 k, (hfb c).2.2.2.2 k, hvb, hva]
    by_cases h2 : k = kb
    · have h1 : ¬ k = ka := fun e => hne (e.symm.trans h2)
      rw [if_pos h2, if_neg h1, if_pos h2]
    · rw [if_neg h2, if_neg h2]

/-- Two independent calls give the same draft in either order. -/
theorem optCall_commute_of_independent (c : check) (a b : OptCall)
    (h : a.independent b = true) :
    check.same (newCheck.loop c [a.eval, b.eval]) (newCheck.loop c [b.eval, a.eval]) := by
  unfold OptCall.independent at h
  by_cases ht : a.target ≠ b.target
  · rw [optCall_commute_of_target_ne c a b ht]
    exact check.same_refl _
  · rw [decide_eq_false ht, Bool.false_or] at h
    cases ha : a.hdrKey with
    | none =>
      rw [ha] at h
      exact Bool.noConfusion h
    | some ka =>
      cases hb : b.hdrKey with
      | none =>
        rw [ha, hb] at h
        exact Bool.noConfusion h
      | some kb =>
        rw [ha, hb] at h
        exact optCall_commute_of_hdrKey_ne c a b ka kb ha hb (of_decide_eq_true h)

/-- Counterexample to C20 as stated: `optHdr` with the map `{A: ["1"]}` and
`optAddHdr("B", "x")` write neither the same scalar field nor the same header
key, yet the order matters: `optHdr` first leaves header `B` equal to `["x"]`,
`optHdr` last leaves header `B` absent. -/
theorem options_commute_counterexample :
    (newCheck [optHdr (some ⟨[("A", ["1"])]⟩), optAddHdr "B" "x"]).hdrLookup "B" = some ["x"] ∧
    (newCheck [optAddHdr "B" "x", optHdr (some ⟨[("A", ["1"])]⟩)]).hdrLookup "B" = none ∧
    ¬ check.same (newCheck [optHdr (some ⟨[("A", ["1"])]⟩), optAddHdr "B" "x"])
        (newCheck [optAddHdr "B" "x", optHdr (some ⟨[("A", ["1"])]⟩)]) := by
  refine ⟨by decide, by decide, ?_⟩
  intro h
  have hB := h.2.2.2.2 "B"
  revert hB
  decide

/-- C20, amended: on every draft, two calls of options that write different fields
(method, URL, validator, headers) give the same check in either order, also
between any options run before and after them; `optSetHdr(k1, v1)` and
`optSetHdr(k2, v2)` with `k1` different from `k2` give the same check in either
order; and in any argument list of `newCheck`, exchanging two neighbouring calls
that are independent (different fields, or two of `optSetHdr` and `optAddHdr`
writing different map keys) does not change the check built.  So the order
matters only among calls writing the same scalar field or the same map key, or
a header call and `optHdr`. -/
theorem options_commute (c : check) (a b : OptCall) (before after : List option)
    (pre post : List (Option OptCall)) (k1 k2 : String) (v1 v2 : List String) :
    (a.target ≠ b.target →
      newCheck.loop c [a.eval, b.eval] = newCheck.loop c [b.eval, a.eval] ∧
      newCheck (before ++ [a.eval, b.eval] ++ after)
        = newCheck (before ++ [b.eval, a.eval] ++ after)) ∧
    (k1 ≠ k2 →
      check.same (newCheck.loop c [optSetHdr k1 v1, optSetHdr k2 v2])
        (newCheck.loop c [optSetHdr k2 v2, optSetHdr k1 v1]) ∧
      check.same
        (newCheck (evalArgs (pre ++ [some (OptCall.optSetHdr k1 v1),
          some (OptCall.optSetHdr k2 v2)] ++ post)))
        (newCheck (evalArgs (pre ++ [some (OptCall.optSetHdr k2 v2),
          some (OptCall.optSetHdr k1 v1)] ++ post)))) ∧
    (a.independent b = true →
      check.same (newCheck.loop c [a.eval, b.eval]) (newCheck.loop c [b.eval, a.eval]) ∧
      check.same (newCheck (evalArgs (pre ++ [some a, some b] ++ post)))
        (newCheck (evalArgs (pre ++ [some b, some a] ++ post)))) := by
  have hlist : ∀ x y : OptCall, x.independent y = true →
      check.same (newCheck (evalArgs (pre ++ [some x, some y] ++ post)))
        (newCheck (evalArgs (pre ++ [some y, some x] ++ post))) := by
    intro x y hxy
    have hx : evalArgs (pre ++ [some x, some y] ++ post)
        = evalArgs pre ++ [x.eval, y.eval] ++ evalArgs post := by
      simp [evalArgs]
    have hy : evalArgs (pre ++ [some y, some x] ++ post)
        = evalArgs pre ++ [y.eval, x.eval] ++ evalArgs post := by
      simp [evalArgs]
    unfold newCheck
    rw [hx, hy, newCheck.loop_append, newCheck.loop_append, newCheck.loop_append,
      newCheck.loop_append]
    exact evalArgs_same post _ _ (optCall_commute_of_independent _ x y hxy)
  have hsetind : k1 ≠ k2 →
      (OptCall.optSetHdr k1 v1).independent (OptCall.optSetHdr k2 v2) = true := by
    intro hne
    unfold OptCall.independent OptCall.hdrKey
    simp [hne]
  refine ⟨?_, ?_, ?_⟩
  · intro h
    have hswap := fun d => optCall_commute_of_target_ne d a b h
    refine ⟨hswap c, ?_⟩
    unfold newCheck
    rw [newCheck.loop_append, newCheck.loop_append, newCheck.loop_append, newCheck.loop_append,
      hswap]
  · intro hne
    exact ⟨optCall_commute_of_independent c _ _ (hsetind hne), hlist _ _ (hsetind hne)⟩
  · intro h
    exact ⟨optCall_commute_of_independent c a b h, hlist a b h⟩

/-- Witness of C20, amended: `optPost` and `optURL` in either order; `optSetHdr` on `A`
and on `B` in either order, before an `optAddHdr` on `A`; `optSetHdr` on `B` and
`optAddHdr` on `a` in either order, after an `optHdr`. -/
theorem options_commute_witness :
    newCheck ([] ++ [OptCall.optPost.eval, (OptCall.optURL "http://x").eval] ++ [])
      = newCheck ([] ++ [(OptCall.optURL "http://x").eval, OptCall.optPost.eval] ++ []) ∧
    check.same
      (newCheck (evalArgs ([] ++ [some (OptCall.optSetHdr "A" ["1"]),
        some (OptCall.optSetHdr "B" ["2"])] ++ [some (OptCall.optAddHdr "A" "3")])))
      (newCheck (evalArgs ([] ++ [some (OptCall.optSetHdr "B" ["2"]),
        some (OptCall.optSetHdr "A" ["1"])] ++ [some (OptCall.optAddHdr "A" "3")]))) ∧
    check.same
      (newCheck (evalArgs ([some (OptCall.optHdr none)] ++ [some (OptCall.optSetHdr "B" ["2"]),
        some (OptCall.optAddHdr "a" "1")] ++ [])))
      (newCheck (evalArgs ([some (OptCall.optHdr none)] ++ [some (OptCall.optAddHdr "a" "1"),
        some (OptCall.optSetHdr "B" ["2"])] ++ []))) :=
  ⟨((options_commute (newCheck []) OptCall.optPost (OptCall.optURL "http://x") [] [] [] []
      "A" "B" ["1"] ["2"]).1 (by decide)).2,
   ((options_commute (newCheck []) OptCall.optPost (OptCall.optURL "http://x") [] []
      [] [some (OptCall.optAddHdr "A" "3")] "A" "B" ["1"] ["2"]).2.1 (by decide)).2,
   ((options_commute (newCheck []) (OptCall.optSetHdr "B" ["2"]) (OptCall.optAddHdr "a" "1")
      [] [] [some (OptCall.optHdr none)] [] "A" "B" ["1"] ["2"]).2.2 (by decide)).2⟩

end HttpMonitor
